import Mathlib

/-!
# The VM builder (`vmbuilder/src/buildvm.c`): symbol table, relocation interner, name decoration

A shallow embedding of the machine-code build step of the LuaJIT-derived VM builder.

* C strings are lists of characters (the bytes before the terminating NUL).
* C arrays reached through a pointer (`ctx->sym`, `ctx->reloc`, `ctx->relocsym`, `ctx->glob`,
  `ctx->bc_ofs`, and the file-scope `relocmap`) are total maps from an index to a value; the
  counters next to them (`nsym`, `nreloc`, `nrelocsym`, ...) say how much of each is in use.
* Addresses are integers, the null pointer is `0`.
* A conversion to `int32_t` is the explicit two's complement wrap `toInt32`.
* `exit(n)` is the error side of `Except`, carrying the exit status, the text written to the
  standard error stream and the build context at the moment of the exit.
* What the headers `buildvm.h` and `buildvm_arch.h` and the DynASM encoder supply (constants,
  name tables, the results of the backend) is a parameter: `Target` and `Backend`.
* `malloc` always succeeds, and its memory has arbitrary contents (whatever the array held
  before).
* The buffer `char name[256]` of `sym_decorate` is in `sym_decorate_buf`: the result is `none`
  when `sprintf` writes past the end of the buffer, and the string returned otherwise.
  `sym_decorate` is that string; it is what `sym_insert`, `collect_reloc` and `build_code`
  store, whose names come from the static tables and the label prefix.
* The maps have no length: that the writes to `ctx->sym` stay inside the allocated block is
  stated on the cells each call of `sym_insert` writes (`sym_insert_writes`,
  `build_code_calls`) and on the allocated number of entries (`symCapacity`).
-/

namespace BuildVM

/-! ## Data model -/

/-- Output modes `BUILD_*`. The six named constructors are the modes `buildvm.c` refers to; the
list `BUILDDEF` of `buildvm.h` may declare further ones, which are `other k`. -/
inductive BuildMode where
  | elfasm
  | coffasm
  | machasm
  | peobj
  | raw
  | bcdef
  | other (k : Nat)
  deriving DecidableEq, Repr

/-- Compile-time configuration: the preprocessor switches and the static tables that
`buildvm.c` takes from `buildvm.h` and from the generated `buildvm_arch.h`.
`globnames` and `extnames` hold the entries that precede the terminating null entry of the
C tables, so that `GLOB__MAX` and `NRELOCSYM` are their lengths. -/
structure Target where
  RAVI_64 : Bool
  RAVI_TARGET_X86ORX64 : Bool
  LABEL_PREFIX : List Char
  BUILD_MAX_RELOC : Nat
  globnames : List (List Char)
  extnames : List (List Char)

/-- The constant `GLOB__MAX`: the number of declared globals. -/
def GLOB__MAX (T : Target) : Nat := T.globnames.length

/-- The constant `NRELOCSYM`, `sizeof(extnames)/sizeof(extnames[0])-1`. -/
def NRELOCSYM (T : Target) : Nat := T.extnames.length

/-- One row of the symbol table, `BuildSym`. -/
structure BuildSym where
  ofs : Int
  name : List Char
  deriving DecidableEq, Repr

/-- One recorded relocation, `BuildReloc`. -/
structure BuildReloc where
  ofs : Int
  sym : Int
  type : Int
  deriving DecidableEq, Repr

/-- The build context `BuildCtx`, together with the file-scope array `relocmap`. -/
structure BuildCtx where
  mode : BuildMode
  npc : Int
  nglob : Nat
  nsym : Nat
  nreloc : Nat
  nrelocsym : Nat
  glob : Nat → Int
  sym : Nat → BuildSym
  reloc : Nat → BuildReloc
  relocsym : Nat → List Char
  bc_ofs : Nat → Int
  code : Int
  codesz : Nat
  beginsym : List Char
  relocmap : Nat → Int

/-- A call of `exit`: the status, the diagnostic on the standard error stream, and the build
context when the process stops. -/
structure Fatal where
  status : Nat
  stderr : List Char
  ctx : BuildCtx

/-- Conversion to `int32_t`: reduction modulo `2^32` into `[-2^31, 2^31)`. -/
def toInt32 (x : Int) : Int := (x + 2147483648) % 4294967296 - 2147483648

/-- Array store `a[i] = v`. -/
def store {α : Type} (a : Nat → α) (i : Nat) (v : α) : Nat → α :=
  fun j => if j = i then v else a j

/-- The first `n` cells of an array, as a list. -/
def cells {α : Type} (a : Nat → α) (n : Nat) : List α := (List.range n).map a

/-! ## `sym_decorate` -/

/-- The assignment `name[0] = name[1] == 'R' ? '_' : '@'`. -/
def setLead (name : List Char) : List Char :=
  match name with
  | [] => []
  | _ :: rest => (if rest.head? = some 'R' then '_' else '@') :: rest

/-- The string that `sym_decorate` returns for a name that fits its buffer: the exported name
of `pfx ++ suffix` for the mode of `ctx`. The buffer `char name[256]` is in `sym_decorate_buf`
below. -/
def sym_decorate (T : Target) (ctx : BuildCtx) (pfx suffix : List Char) : List Char :=
  let symprefix : List Char :=
    if T.RAVI_64 then (if ctx.mode = BuildMode.machasm then ['_'] else [])
    else (if ctx.mode ≠ BuildMode.elfasm then ['_'] else [])
  let name : List Char := symprefix ++ pfx ++ suffix
  if '@' ∈ name then
    if T.RAVI_TARGET_X86ORX64 then
      if !T.RAVI_64 && (ctx.mode = BuildMode.coffasm || ctx.mode = BuildMode.peobj) then
        setLead name
      else
        name.takeWhile (fun c => c ≠ '@')
    else
      name.takeWhile (fun c => c ≠ '@')
  else
    name

/-- The size of the buffer `char name[256]` of `sym_decorate`. -/
def NAME_SIZE : Nat := 256

/-- The function `sym_decorate` with its buffer: `sprintf` writes the three strings and the
terminating NUL into `name`, and when they do not fit the `256` bytes the write runs past the
end of the buffer and the behaviour of the program is undefined (`none`). -/
def sym_decorate_buf (T : Target) (ctx : BuildCtx) (pfx suffix : List Char) :
    Option (List Char) :=
  let symprefix : List Char :=
    if T.RAVI_64 then (if ctx.mode = BuildMode.machasm then ['_'] else [])
    else (if ctx.mode ≠ BuildMode.elfasm then ['_'] else [])
  let name : List Char := symprefix ++ pfx ++ suffix
  if NAME_SIZE < name.length + 1 then none
  else if '@' ∈ name then
    if T.RAVI_TARGET_X86ORX64 then
      if !T.RAVI_64 && (ctx.mode = BuildMode.coffasm || ctx.mode = BuildMode.peobj) then
        some (setLead name)
      else
        some (name.takeWhile (fun c => c ≠ '@'))
    else
      some (name.takeWhile (fun c => c ≠ '@'))
  else
    some name

/-! ## `collect_reloc` -/

/-- The diagnostic of `collect_reloc` when the relocation array is full. -/
def relocOverflowMsg : List Char :=
  "Error: too many relocations, increase BUILD_MAX_RELOC.\n".toList

/-- The function `collect_reloc`: `addr` is the address of the reference inside the code buffer,
`idx` the index into `extnames`, `type` the relocation kind. Returns the new context and the
value to encode. -/
def collect_reloc (T : Target) (ctx : BuildCtx) (addr : Int) (idx : Nat) (type : Int) :
    Except Fatal (BuildCtx × Int) :=
  if ctx.nreloc ≥ T.BUILD_MAX_RELOC then
    Except.error ⟨1, relocOverflowMsg, ctx⟩
  else
    let ctx1 : BuildCtx :=
      if ctx.relocmap idx < 0 then
        { ctx with
          relocmap := store ctx.relocmap idx (ctx.nrelocsym : Int)
          relocsym := store ctx.relocsym ctx.nrelocsym (sym_decorate T ctx [] (T.extnames.getD idx []))
          nrelocsym := ctx.nrelocsym + 1 }
      else ctx
    let r : BuildReloc := ⟨toInt32 (addr - ctx1.code), ctx1.relocmap idx, type⟩
    Except.ok ({ ctx1 with reloc := store ctx1.reloc ctx1.nreloc r, nreloc := ctx1.nreloc + 1 }, 0)

/-- One request `DASM_EXTERN(ctx, addr, idx, type)` of the encoder. -/
structure ExternReq where
  addr : Int
  idx : Nat
  type : Int
  deriving DecidableEq, Repr

/-- The encoder issuing a sequence of `DASM_EXTERN` requests, each one a `collect_reloc` call;
the first failing call ends the process. -/
def collect_relocs (T : Target) : BuildCtx → List ExternReq → Except Fatal BuildCtx
  | ctx, [] => Except.ok ctx
  | ctx, q :: rest =>
    match collect_reloc T ctx q.addr q.idx q.type with
    | Except.error e => Except.error e
    | Except.ok (ctx1, _) => collect_relocs T ctx1 rest

/-! ## `sym_insert` -/

/-- The loop of `sym_insert`, started at index `i`: shifts entries with a larger offset one
cell up and returns the array with the index at which the loop stops. -/
def sym_insert_loop (sym : Nat → BuildSym) (ofs : Int) : Nat → (Nat → BuildSym) × Nat
  | 0 => (sym, 0)
  | i + 1 =>
    if (sym i).ofs ≤ ofs then (sym, i + 1)
    else sym_insert_loop (store sym (i + 1) (sym i)) ofs i

/-- The function `sym_insert`. -/
def sym_insert (T : Target) (ctx : BuildCtx) (ofs : Int) (pfx suffix : List Char) : BuildCtx :=
  let r := sym_insert_loop ctx.sym ofs ctx.nsym
  { ctx with
    nsym := ctx.nsym + 1
    sym := store r.1 r.2 ⟨ofs, sym_decorate T ctx pfx suffix⟩ }

/-! ## `build_code` -/

/-- What the DynASM backend reports during one run of `build_code`. -/
structure Backend where
  /-- result of `build_backend` -/
  npc : Int
  /-- status of `dasm_link` -/
  link_status : Int
  /-- code size stored by `dasm_link` -/
  codesz : Nat
  /-- address of the code buffer returned by `malloc` -/
  code : Int
  /-- the `DASM_EXTERN` requests issued while `dasm_encode` runs -/
  externs : List ExternReq
  /-- status of `dasm_encode` -/
  encode_status : Int
  /-- the global label addresses left in `ctx->glob` by `dasm_encode` (`0` when not defined) -/
  glob : Nat → Int
  /-- result of `dasm_getpclabel` -/
  pclabel : Nat → Int

/-- The test `len >= 2 && gl[len-2] == '_' && gl[len-1] == 'Z'`. -/
def ends_Z (gl : List Char) : Bool :=
  decide (gl.length ≥ 2) && (gl.getD (gl.length - 2) (Char.ofNat 0) == '_')
    && (gl.getD (gl.length - 1) (Char.ofNat 0) == 'Z')

/-- The initialisation at the head of `build_code`, up to the call of the backend. -/
def build_init (T : Target) (ctx : BuildCtx) : BuildCtx :=
  { ctx with
    nglob := GLOB__MAX T
    glob := fun _ => 0
    nreloc := 0
    nrelocsym := 0
    relocmap := fun i => if i < NRELOCSYM T then -1 else ctx.relocmap i }

/-- The loop over the PC labels, for the indices in `is`: the context reached, and the status
to return when a label is negative (`none` when the loop runs to its end). -/
def collect_pclabels (B : Backend) : List Nat → BuildCtx → Option Int × BuildCtx
  | [], ctx => (none, ctx)
  | i :: is, ctx =>
    let ofs := B.pclabel i
    if ofs < 0 then (some (Int.ofNat (Nat.lor 0x22000000 i)), ctx)
    else collect_pclabels B is { ctx with bc_ofs := store ctx.bc_ofs i ofs }

/-- The diagnostic for a global that was never defined. -/
def undefinedGlobalMsg (gl : List Char) : List Char :=
  "Error: undefined global ".toList ++ gl ++ "\n".toList

/-- The loop over the globals, for the indices in `is`. -/
def collect_globals (T : Target) : List Nat → BuildCtx → Except Fatal BuildCtx
  | [], ctx => Except.ok ctx
  | i :: is, ctx =>
    let gl := T.globnames.getD i []
    if ctx.glob i = 0 then
      Except.error ⟨2, undefinedGlobalMsg gl, ctx⟩
    else if !(ends_Z gl) then
      collect_globals T is (sym_insert T ctx (toInt32 (ctx.glob i - ctx.code)) T.LABEL_PREFIX gl)
    else
      collect_globals T is ctx

/-- The tail of `build_code` after a successful encode: allocation of the symbol table, the
two collection loops, and the sentinel that closes the address range. -/
def build_symbols (T : Target) (B : Backend) (ctx : BuildCtx) : Except Fatal (Int × BuildCtx) :=
  let ctx1 : BuildCtx :=
    { ctx with beginsym := sym_decorate T ctx [] (T.LABEL_PREFIX ++ "vm_asm_begin".toList)
               nsym := 0 }
  match collect_pclabels B (List.range ctx1.npc.toNat) ctx1 with
  | (some status, ctx2) => Except.ok (status, ctx2)
  | (none, ctx2) =>
    match collect_globals T (List.range ctx2.nglob) ctx2 with
    | Except.error e => Except.error e
    | Except.ok ctx3 =>
      let ctx4 := sym_insert T ctx3 (toInt32 (ctx3.codesz : Int)) [] []
      Except.ok (0, { ctx4 with nsym := ctx4.nsym - 1 })

/-- The function `build_code`. The returned pair is the status and the context. -/
def build_code (T : Target) (B : Backend) (ctx : BuildCtx) : Except Fatal (Int × BuildCtx) :=
  let ctx1 := { build_init T ctx with npc := B.npc }
  if B.link_status ≠ 0 then Except.ok (B.link_status, ctx1)
  else
    let ctx2 : BuildCtx := { ctx1 with codesz := B.codesz, code := B.code }
    match collect_relocs T ctx2 B.externs with
    | Except.error e => Except.error e
    | Except.ok ctx3 =>
      let ctx4 : BuildCtx := { ctx3 with glob := B.glob }
      if B.encode_status ≠ 0 then Except.ok (B.encode_status, ctx4)
      else build_symbols T B ctx4

/-! ## `emit_bcdef` -/

/-- The conversion `%d` of `fprintf`: the decimal digits, with a minus sign when negative. -/
def fmt_d (n : Int) : List Char :=
  if n < 0 then '-' :: (Nat.repr n.natAbs).toList else (Nat.repr n.toNat).toList

/-- The first line `emit_bcdef` writes. -/
def bcdefHeader : List Char := "/* This is a generated file. DO NOT EDIT! */\n\n".toList

/-- The second line `emit_bcdef` writes. -/
def bcdefDecl : List Char := "RAVI_DATADEF const uint16_t lj_bc_ofs[] = \x7b\n".toList

/-- The loop of `emit_bcdef` over the instruction indices in `is`. -/
def emit_bcdef_loop (ctx : BuildCtx) : List Nat → List Char
  | [] => []
  | i :: is =>
    (if i ≠ 0 then ",\n".toList else []) ++ fmt_d (ctx.bc_ofs i) ++ emit_bcdef_loop ctx is

/-- The function `emit_bcdef`: the text it writes to the output stream. -/
def emit_bcdef (ctx : BuildCtx) : List Char :=
  bcdefHeader ++ bcdefDecl ++ emit_bcdef_loop ctx (List.range ctx.npc.toNat)

/-! ## Argument parsing -/

/-- What the argument parser takes from `buildvm.h` and the architecture header: the mode
names that `BUILDDEF` lists (the entries of `modenames` before its terminating null entry),
the architecture name, and the switch `RAVI_32`. -/
structure Frontend where
  modenames : List (List Char)
  RAVI_ARCH_NAME : List Char
  RAVI_32 : Bool

/-- The constant `BUILD__MAX`: the number of modes that `BUILDDEF` lists. -/
def BUILD__MAX (F : Frontend) : Nat := F.modenames.length

/-- The enumeration value `(BuildMode)i`: `BUILDDEF` gives entry `i` of `modenames` the
constant `BUILD_` followed by that name. -/
def modeOfIndex (F : Frontend) (i : Nat) : BuildMode :=
  let name := F.modenames.getD i []
  if name = "elfasm".toList then BuildMode.elfasm
  else if name = "coffasm".toList then BuildMode.coffasm
  else if name = "machasm".toList then BuildMode.machasm
  else if name = "peobj".toList then BuildMode.peobj
  else if name = "raw".toList then BuildMode.raw
  else if name = "bcdef".toList then BuildMode.bcdef
  else BuildMode.other i

/-- A call of `exit` outside `build_code`: the status and the text on the standard error
stream. -/
structure Exit where
  status : Nat
  stderr : List Char
  deriving DecidableEq, Repr

/-- The lines `usage` prints for the modes. -/
def usageModes : List (List Char) → List Char
  | [] => []
  | n :: ns => "  ".toList ++ n ++ "\n".toList ++ usageModes ns

/-- The function `usage`: it prints the usage text and exits with status `1`. -/
def usage (F : Frontend) : Exit :=
  ⟨1, "LuaJIT 2.1.0-beta3 VM builder.\n".toList
      ++ "Copyright (C) 2005-2017 Mike Pall, http://luajit.org/\n".toList
      ++ "Target architecture: ".toList ++ F.RAVI_ARCH_NAME ++ "\n\n".toList
      ++ "Usage: buildvm -m mode [-o outfile] [infiles...]\n\n".toList
      ++ "Available modes:\n".toList
      ++ usageModes F.modenames⟩

/-- The loop of `parsemode` over the entries `names` of `modenames` that start at index `i`. -/
def parsemode_loop (mode : List Char) : List (List Char) → Nat → Option Nat
  | [], _ => none
  | n :: ns, i => if mode = n then some i else parsemode_loop mode ns (i + 1)

/-- The function `parsemode`. -/
def parsemode (F : Frontend) (mode : List Char) : Except Exit Nat :=
  match parsemode_loop mode F.modenames 0 with
  | some i => Except.ok i
  | none => Except.error (usage F)

/-- What `parseargs` leaves in the context: the mode, the output name, and the arguments
that remain. -/
structure ParsedArgs where
  mode : Nat
  outname : List Char
  args : List (List Char)
  deriving DecidableEq, Repr

/-- The label `ok` of `parseargs`: the remaining arguments are stored, and a mode that is
still `(BuildMode)-1` (`none`) is a usage error. -/
def parseargs_ok (F : Frontend) (mode : Option Nat) (outname : List Char)
    (args : List (List Char)) : Except Exit ParsedArgs :=
  match mode with
  | none => Except.error (usage F)
  | some m => Except.ok ⟨m, outname, args⟩

/-- The loop of `parseargs` over the arguments `argv[i], argv[i+1], ...` that are left. -/
def parseargs_loop (F : Frontend) :
    List (List Char) → Option Nat → List Char → Except Exit ParsedArgs
  | [], mode, outname => parseargs_ok F mode outname []
  | [] :: rest, mode, outname => parseargs_ok F mode outname ([] :: rest)
  | (a0 :: a1) :: rest, mode, outname =>
    if a0 ≠ '-' then parseargs_ok F mode outname ((a0 :: a1) :: rest)
    else
      match a1, rest with
      | [], _ => parseargs_ok F mode outname ((a0 :: a1) :: rest)
      | '-' :: a2, _ =>
        if a2 ≠ [] then Except.error (usage F) else parseargs_ok F mode outname rest
      | 'm' :: a2, v :: rest' =>
        if a2 ≠ [] then Except.error (usage F)
        else
          match parsemode F v with
          | Except.error e => Except.error e
          | Except.ok m => parseargs_loop F rest' (some m) outname
      | 'o' :: a2, v :: rest' =>
        if a2 ≠ [] then Except.error (usage F) else parseargs_loop F rest' mode v
      | _, _ => Except.error (usage F)

/-- The function `parseargs`, on the arguments `argv[1], argv[2], ...`. -/
def parseargs (F : Frontend) (args : List (List Char)) : Except Exit ParsedArgs :=
  parseargs_loop F args none "-".toList

/-! ## `main` -/

/-- What `main` meets at run time: the pointer size of the host, the outcome of `fopen` for a
name and a binary flag, the text of `strerror(errno)`, whether `fwrite` writes everything,
the error indicator of the stream after `fflush`, the bytes in memory, and the emitters that
live in other files. -/
structure Host where
  sizeof_ptr : Nat
  fopen : List Char → Bool → Bool
  strerror : List Char
  fwrite_ok : Bool
  ferror : Bool
  mem : Int → Char
  emit_asm : BuildCtx → Except Exit (List Char)
  emit_peobj : BuildCtx → Except Exit (List Char)

/-- How the process ends: the exit status, the text on the standard error stream, whether
control reached the selection of the output stream, whether an emitter was started, and the
text a run that ends with status `0` has written. -/
structure MainResult where
  status : Nat
  stderr : List Char
  opened : Bool
  emitted : Bool
  output : List Char
  deriving DecidableEq, Repr

/-- The conversion `%08x` of `fprintf` applied to an `int`. -/
def hex8 (status : Int) : List Char :=
  let digits := Nat.toDigits 16 (status % 4294967296).toNat
  List.replicate (8 - digits.length) '0' ++ digits

/-- The diagnostic of `owrite` and of `main` when writing fails. -/
def writeErrorMsg (H : Host) : List Char :=
  "Error: cannot write to output file: ".toList ++ H.strerror ++ "\n".toList

/-- The function `emit_raw`, through `owrite`: the `codesz` bytes at `code`. -/
def emit_raw (H : Host) (ctx : BuildCtx) : Except Exit (List Char) :=
  if H.fwrite_ok then Except.ok ((List.range ctx.codesz).map (fun i => H.mem (ctx.code + i)))
  else Except.error ⟨1, writeErrorMsg H⟩

/-- The second `switch` of `main`: the emitter for the mode. -/
def emit (H : Host) (ctx : BuildCtx) : Except Exit (List Char) :=
  match ctx.mode with
  | BuildMode.elfasm => H.emit_asm ctx
  | BuildMode.coffasm => H.emit_asm ctx
  | BuildMode.machasm => H.emit_asm ctx
  | BuildMode.peobj => H.emit_peobj ctx
  | BuildMode.raw => emit_raw H ctx
  | BuildMode.bcdef => Except.ok (emit_bcdef ctx)
  | BuildMode.other _ => Except.ok []

/-- The part of `main` after a successful `build_code`: the output is selected, the emitter
runs, the stream is flushed and closed. -/
def main_output (H : Host) (ctx : BuildCtx) (outname : List Char) : MainResult :=
  let binmode : Bool :=
    match ctx.mode with
    | BuildMode.peobj => true
    | BuildMode.raw => true
    | _ => false
  if outname ≠ "-".toList ∧ H.fopen outname binmode = false then
    ⟨1, "Error: cannot open output file '".toList ++ outname ++ "': ".toList ++ H.strerror
        ++ "\n".toList, true, false, []⟩
  else
    match emit H ctx with
    | Except.error e => ⟨e.status, e.stderr, true, true, []⟩
    | Except.ok out =>
      if H.ferror then ⟨1, writeErrorMsg H, true, true, []⟩
      else ⟨0, [], true, true, out⟩

/-- The function `main` for the arguments `argv[1], argv[2], ...`; `c0` is the context as
`main` finds it (the local `ctx_` and the file-scope `relocmap`). -/
def main (T : Target) (F : Frontend) (H : Host) (B : Backend) (c0 : BuildCtx)
    (args : List (List Char)) : MainResult :=
  if H.sizeof_ptr ≠ 4 * (if F.RAVI_32 then 1 else 0) + 8 * (if T.RAVI_64 then 1 else 0) then
    ⟨1, "Error: pointer size mismatch in cross-build.\n".toList
        ++ "Try: make HOST_CC=\"gcc -m32\" CROSS=...\n\n".toList, false, false, []⟩
  else
    match parseargs F args with
    | Except.error e => ⟨e.status, e.stderr, false, false, []⟩
    | Except.ok pa =>
      match build_code T B { c0 with mode := modeOfIndex F pa.mode } with
      | Except.error e => ⟨e.status, e.stderr, false, false, []⟩
      | Except.ok (status, ctx) =>
        if status ≠ 0 then
          ⟨1, "Error: DASM error ".toList ++ hex8 status ++ "\n".toList, false, false, []⟩
        else main_output H ctx pa.outname

/-! ## The stages of `build_code`, named -/

/-- The context in which `dasm_encode` starts: initialised, with `npc`, `codesz` and `code`
set. -/
def encodeStart (T : Target) (B : Backend) (c : BuildCtx) : BuildCtx :=
  { build_init T c with npc := B.npc, codesz := B.codesz, code := B.code }

/-- The context in which the loop over the PC labels starts, `ctx3` being the context
`dasm_encode` has left. -/
def symbolsStart (T : Target) (B : Backend) (ctx3 : BuildCtx) : BuildCtx :=
  { ctx3 with
    glob := B.glob
    beginsym := sym_decorate T ctx3 [] (T.LABEL_PREFIX ++ "vm_asm_begin".toList)
    nsym := 0 }

/-- The context `build_code` returns with status `0`, `ctx5` being the context the loop over
the globals has left: the sentinel is inserted and `nsym` decremented. -/
def closeRange (T : Target) (ctx5 : BuildCtx) : BuildCtx :=
  { sym_insert T ctx5 (toInt32 (ctx5.codesz : Int)) [] [] with
    nsym := (sym_insert T ctx5 (toInt32 (ctx5.codesz : Int)) [] []).nsym - 1 }

/-! ## Sequences of insertions and the stable sort -/

/-- A 64-bit x86 configuration with two globals and two external names. -/
def sampleTarget : Target :=
  { RAVI_64 := true
    RAVI_TARGET_X86ORX64 := true
    LABEL_PREFIX := "lj_".toList
    BUILD_MAX_RELOC := 200
    globnames := ["vm_a".toList, "vm_b".toList]
    extnames := ["malloc".toList, "qsort".toList] }

/-- A context with every counter zero and every array cleared, in mode `elfasm`. -/
def sampleCtx : BuildCtx :=
  { mode := BuildMode.elfasm
    npc := 0
    nglob := 0
    nsym := 0
    nreloc := 0
    nrelocsym := 0
    glob := fun _ => 0
    sym := fun _ => ⟨0, []⟩
    reloc := fun _ => ⟨0, 0, 0⟩
    relocsym := fun _ => []
    bc_ofs := fun _ => 0
    code := 4096
    codesz := 0
    beginsym := []
    relocmap := fun _ => 0 }

/-- A context whose symbol table holds the two rows `(10, "a")` and `(40, "b")`. -/
def twoRowCtx : BuildCtx :=
  { sampleCtx with
    nsym := 2
    sym := fun i => [(⟨10, "a".toList⟩ : BuildSym), ⟨40, "b".toList⟩].getD i ⟨0, []⟩ }

/-- The backend of the end-to-end scenario: three instructions with label offsets `0, 10, 40`,
the two globals at offsets `55` and `80`, code size `100`, no relocation request. -/
def sampleBackend : Backend :=
  { npc := 3
    link_status := 0
    codesz := 100
    code := 4096
    externs := []
    encode_status := 0
    glob := fun i => [4151, 4176].getD i 0
    pclabel := fun i => [0, 10, 40].getD i (-1) }

/-- The sample context in mode `machasm`. -/
def machasmCtx : BuildCtx := { sampleCtx with mode := BuildMode.machasm }

/-- A context in which index `0` is interned with local id `0` and the relocation array of
`sampleTarget` is full. -/
def fullCtx : BuildCtx :=
  { sampleCtx with
    nreloc := 200
    nrelocsym := 1
    relocsym := fun i => if i = 0 then "malloc".toList else []
    relocmap := fun i => if i = 0 then 0 else -1 }

/-- Three requests: index `0` at code offsets `12` and `30`, then index `1` at offset `44`. -/
def sampleRequests : List ExternReq :=
  [⟨4108, 0, 1⟩, ⟨4126, 0, 1⟩, ⟨4140, 1, 1⟩]

/-- The context and value a `collect_reloc` call ends with. -/
def returned : Except Fatal (BuildCtx × Int) → BuildCtx × Int
  | Except.ok r => r
  | Except.error e => (e.ctx, 0)

/-- The context a run ends with. -/
def resultCtx : Except Fatal (Int × BuildCtx) → BuildCtx
  | Except.ok (_, ctx) => ctx
  | Except.error e => e.ctx

/-- The sample configuration as a 32-bit x86 target. -/
def x86Target : Target := { sampleTarget with RAVI_64 := false }

/-- The sample configuration as a 32-bit target that is not x86. -/
def arm32Target : Target :=
  { sampleTarget with RAVI_64 := false, RAVI_TARGET_X86ORX64 := false }

/-- The sample context in mode `coffasm`. -/
def coffasmCtx : BuildCtx := { sampleCtx with mode := BuildMode.coffasm }

/-- A context after a build of four instructions with bytecode offsets `0, 8, 16, 30`. -/
def bcdefCtx : BuildCtx :=
  { sampleCtx with mode := BuildMode.bcdef, npc := 4, bc_ofs := fun i => [0, 8, 16, 30].getD i 0 }

/-- The six modes `buildvm.c` names, in the order of the `switch` statements of `main`. -/
def sampleFrontend : Frontend :=
  { modenames := ["elfasm".toList, "coffasm".toList, "machasm".toList, "peobj".toList,
      "raw".toList, "bcdef".toList]
    RAVI_ARCH_NAME := "x64".toList
    RAVI_32 := false }

/-- A 64-bit host on which every file opens and every write succeeds. -/
def sampleHost : Host :=
  { sizeof_ptr := 8
    fopen := fun _ _ => true
    strerror := "No such file or directory".toList
    fwrite_ok := true
    ferror := false
    mem := fun _ => Char.ofNat 0
    emit_asm := fun _ => Except.ok []
    emit_peobj := fun _ => Except.ok [] }

/-- The scenario backend with a failing link step. -/
def linkFailBackend : Backend := { sampleBackend with link_status := 3 }

/-- The arguments `-m bcdef -o out.h`. -/
def sampleArgs : List (List Char) :=
  ["-m".toList, "bcdef".toList, "-o".toList, "out.h".toList]

/-- The sample context in mode `peobj`. -/
def peobjCtx : BuildCtx := { sampleCtx with mode := BuildMode.peobj }

/-- The indices of `ctx->sym` that the loop of `sym_insert`, started at index `i`, writes: the
cell `i` of every shift `ctx->sym[i] = ctx->sym[i-1]`, and the cell at which the loop stops,
which receives the new row. -/
def sym_insert_writes (sym : Nat → BuildSym) (ofs : Int) : Nat → List Nat
  | 0 => [0]
  | i + 1 =>
    if (sym i).ofs ≤ ofs then [i + 1]
    else (i + 1) :: sym_insert_writes (store sym (i + 1) (sym i)) ofs i

/-- One call of `sym_insert`, as the run makes it: the value of `nsym` on entry, and the
cells of `sym` the call writes. -/
structure InsertCall where
  nsym : Nat
  writes : List Nat
  deriving DecidableEq, Repr

/-- The call `sym_insert(ctx, ofs, ...)`. -/
def sym_insert_call (ctx : BuildCtx) (ofs : Int) : InsertCall :=
  ⟨ctx.nsym, sym_insert_writes ctx.sym ofs ctx.nsym⟩

/-- The calls of `sym_insert` that the loop over the globals makes, for the indices in `is`. -/
def collect_globals_calls (T : Target) : List Nat → BuildCtx → List InsertCall
  | [], _ => []
  | i :: is, ctx =>
    let gl := T.globnames.getD i []
    if ctx.glob i = 0 then []
    else if !(ends_Z gl) then
      sym_insert_call ctx (toInt32 (ctx.glob i - ctx.code)) ::
        collect_globals_calls T is
          (sym_insert T ctx (toInt32 (ctx.glob i - ctx.code)) T.LABEL_PREFIX gl)
    else
      collect_globals_calls T is ctx

/-- The calls of `sym_insert` in one run of `build_code`, in order: those of the loop over the
globals, then the one that inserts the sentinel when that loop has run to its end. -/
def build_code_calls (T : Target) (B : Backend) (c : BuildCtx) : List InsertCall :=
  if B.link_status ≠ 0 then []
  else
    match collect_relocs T (encodeStart T B c) B.externs with
    | Except.error _ => []
    | Except.ok ctx3 =>
      if B.encode_status ≠ 0 then []
      else
        match collect_pclabels B (List.range ctx3.npc.toNat) (symbolsStart T B ctx3) with
        | (some _, _) => []
        | (none, ctx4) =>
          match collect_globals T (List.range ctx4.nglob) ctx4 with
          | Except.error _ => collect_globals_calls T (List.range ctx4.nglob) ctx4
          | Except.ok ctx5 =>
            collect_globals_calls T (List.range ctx4.nglob) ctx4
              ++ [sym_insert_call ctx5 (toInt32 (ctx5.codesz : Int))]

/-- The number of entries `build_code` allocates for the symbol table:
`malloc((ctx->npc+ctx->nglob+1)*sizeof(BuildSym))`. -/
def symCapacity (T : Target) (B : Backend) : Int := B.npc + (GLOB__MAX T : Int) + 1

/-- The scenario backend with the two globals in the opposite order, at offsets `80` and
`55`. -/
def swappedBackend : Backend := { sampleBackend with glob := fun i => [4176, 4151].getD i 0 }

/-! ## The options of the command line -/

/-- One option with its value: `-m mode` or `-o outfile`. -/
inductive CmdOption where
  | m (v : List Char)
  | o (v : List Char)
  deriving DecidableEq, Repr

/-- The two arguments that spell an option. -/
def CmdOption.words : CmdOption → List (List Char)
  | CmdOption.m v => ["-m".toList, v]
  | CmdOption.o v => ["-o".toList, v]

/-- The arguments that spell a sequence of options. -/
def optionWords (opts : List CmdOption) : List (List Char) :=
  (opts.map CmdOption.words).flatten

/-- The values of the `-m` options, in order. -/
def modeValues : List CmdOption → List (List Char)
  | [] => []
  | CmdOption.m v :: opts => v :: modeValues opts
  | CmdOption.o _ :: opts => modeValues opts

/-- The values of the `-o` options, in order. -/
def outValues : List CmdOption → List (List Char)
  | [] => []
  | CmdOption.m _ :: opts => outValues opts
  | CmdOption.o v :: opts => v :: outValues opts

/-- Whether the options end at these arguments: none is left, or the first one is a
non-option argument (it does not start with `-`), or `-`, or `--`. -/
def endsOptions : List (List Char) → Bool
  | [] => true
  | a :: _ => decide (a.head? ≠ some '-' ∨ a = "-".toList ∨ a = "--".toList)

/-- The arguments left for the input files once the options have ended: a leading `--` is
skipped, every other argument stays. -/
def remaining : List (List Char) → List (List Char)
  | [] => []
  | a :: rest => if a = "--".toList then rest else a :: rest

/-- The arguments `-m bcdef -o a.h -m raw -o b.bin in.dasc -o c`. -/
def longArgs : List (List Char) :=
  ["-m".toList, "bcdef".toList, "-o".toList, "a.h".toList, "-m".toList, "raw".toList,
    "-o".toList, "b.bin".toList, "in.dasc".toList, "-o".toList, "c".toList]

/-! ## Observations used to state the results -/

/-- The symbol table of a context: the `nsym` rows in use. -/
def symRows (ctx : BuildCtx) : List BuildSym := cells ctx.sym ctx.nsym

/-- The table `sym` is ascending by offset on its first `n` rows. -/
def SortedUpTo (sym : Nat → BuildSym) (n : Nat) : Prop :=
  ∀ i, i + 1 < n → (sym i).ofs ≤ (sym (i + 1)).ofs

/-- The indices of the globals whose name does not end in `_Z`, in table order. -/
def exportedGlobals (T : Target) : List Nat :=
  (List.range (GLOB__MAX T)).filter (fun i => !(ends_Z (T.globnames.getD i [])))

/-- The row that the loop over the globals inserts for global `i`, given the label addresses
`glob` and the address `code` of the code buffer. -/
def globalRow (T : Target) (ctx : BuildCtx) (glob : Nat → Int) (code : Int) (i : Nat) : BuildSym :=
  ⟨toInt32 (glob i - code), sym_decorate T ctx T.LABEL_PREFIX (T.globnames.getD i [])⟩

/-- The marker that `sym_decorate` puts in front of a name: `_` or nothing. -/
def marker (T : Target) (mode : BuildMode) : List Char :=
  if (T.RAVI_64 = true ∧ mode = BuildMode.machasm) ∨ (T.RAVI_64 = false ∧ mode ≠ BuildMode.elfasm)
  then ['_'] else []

/-- The symbol table left by a run that returns status `0`: the rows `0 .. nsym`, the row at
index `nsym` included. -/
def symTable : Except Fatal (Int × BuildCtx) → Option (List BuildSym)
  | Except.ok (status, ctx) => if status = 0 then some (cells ctx.sym (ctx.nsym + 1)) else none
  | Except.error _ => none

/-- The interner state agrees with the list `seen` of indices met so far: the relocation
symbols in use are the decorated names of `seen` in that order, the local id of a seen index
is its position in `seen`, and every other index below `NRELOCSYM` is marked unseen. -/
def Interned (T : Target) (ctx : BuildCtx) (seen : List Nat) : Prop :=
  ctx.nrelocsym = seen.length ∧
  seen.Nodup ∧
  cells ctx.relocsym ctx.nrelocsym
    = seen.map (fun i => sym_decorate T ctx [] (T.extnames.getD i [])) ∧
  (∀ i, i ∈ seen → ctx.relocmap i = (seen.indexOf i : Int)) ∧
  (∀ i, i < NRELOCSYM T → i ∉ seen → ctx.relocmap i < 0)

/-- The exit status of a run that ended in `exit`. -/
def exitStatus {α : Type} : Except Fatal α → Option Nat
  | Except.error e => some e.status
  | Except.ok _ => none

/-- The diagnostic of a run that ended in `exit`. -/
def diagnostic {α : Type} : Except Fatal α → Option (List Char)
  | Except.error e => some e.stderr
  | Except.ok _ => none

/-- The relocation entry at index `k` after a `collect_reloc` call that returned. -/
def relocAt (r : Except Fatal (BuildCtx × Int)) (k : Nat) : Option BuildReloc :=
  match r with
  | Except.ok (ctx, _) => some (ctx.reloc k)
  | Except.error _ => none

/-- The number of slots of the file-scope array `relocmap`, declared as
`relocmap[NRELOCSYM+1]`. -/
def relocmapSlots (T : Target) : Nat := NRELOCSYM T + 1

/-- The index at which `sym_insert` writes the new row. -/
def insertIndex (ctx : BuildCtx) (ofs : Int) : Nat := (sym_insert_loop ctx.sym ofs ctx.nsym).2

/-! ## Lemmas on `sym_insert` -/

theorem store_same {α : Type} (a : Nat → α) (i : Nat) (v : α) : store a i v i = v := by
  simp [store]

theorem store_other {α : Type} (a : Nat → α) (i j : Nat) (v : α) (h : j ≠ i) :
    store a i v j = a j := by
  simp [store, h]

theorem sym_insert_loop_spec (ofs : Int) (n : Nat) : ∀ sym : Nat → BuildSym,
    (sym_insert_loop sym ofs n).2 ≤ n ∧
    (∀ j, j < (sym_insert_loop sym ofs n).2 → (sym_insert_loop sym ofs n).1 j = sym j) ∧
    (∀ j, (sym_insert_loop sym ofs n).2 ≤ j → j < n →
      (sym_insert_loop sym ofs n).1 (j + 1) = sym j) ∧
    (∀ j, n < j → (sym_insert_loop sym ofs n).1 j = sym j) ∧
    ((sym_insert_loop sym ofs n).2 = 0 ∨
      (sym ((sym_insert_loop sym ofs n).2 - 1)).ofs ≤ ofs) ∧
    (∀ j, (sym_insert_loop sym ofs n).2 ≤ j → j < n → ofs < (sym j).ofs) := by
  induction n with
  | zero =>
    intro sym
    simp [sym_insert_loop]
  | succ n ih =>
    intro sym
    by_cases hle : (sym n).ofs ≤ ofs
    · rw [sym_insert_loop, if_pos hle]
      refine ⟨le_refl _, fun j _ => rfl, ?_, fun j _ => rfl, Or.inr (by simpa using hle), ?_⟩
      · intro j h1 h2; omega
      · intro j h1 h2; omega
    · rw [sym_insert_loop, if_neg hle]
      obtain ⟨h1, h2, h3, h4, h5, h6⟩ := ih (store sym (n + 1) (sym n))
      refine ⟨by omega, ?_, ?_, ?_, ?_, ?_⟩
      · intro j hj
        rw [h2 j hj, store_other]
        omega
      · intro j hj1 hj2
        by_cases hjn : j = n
        · subst hjn
          rw [h4 (j + 1) (by omega), store_same]
        · rw [h3 j hj1 (by omega), store_other]
          omega
      · intro j hj
        rw [h4 j (by omega), store_other]
        omega
      · rcases h5 with h5 | h5
        · exact Or.inl h5
        · right
          rw [store_other] at h5
          · exact h5
          · omega
      · intro j hj1 hj2
        by_cases hjn : j = n
        · subst hjn
          omega
        · have := h6 j hj1 (by omega)
          rw [store_other] at this
          · exact this
          · omega

theorem sym_insert_nsym (T : Target) (ctx : BuildCtx) (ofs : Int) (pfx suffix : List Char) :
    (sym_insert T ctx ofs pfx suffix).nsym = ctx.nsym + 1 := rfl

theorem sym_insert_mode (T : Target) (ctx : BuildCtx) (ofs : Int) (pfx suffix : List Char) :
    (sym_insert T ctx ofs pfx suffix).mode = ctx.mode := rfl

theorem insertIndex_le (ctx : BuildCtx) (ofs : Int) : insertIndex ctx ofs ≤ ctx.nsym :=
  (sym_insert_loop_spec ofs ctx.nsym ctx.sym).1

theorem sym_insert_at (T : Target) (ctx : BuildCtx) (ofs : Int) (pfx suffix : List Char) :
    (sym_insert T ctx ofs pfx suffix).sym (insertIndex ctx ofs)
      = ⟨ofs, sym_decorate T ctx pfx suffix⟩ := by
  simp [sym_insert, insertIndex, store]

theorem sym_insert_below (T : Target) (ctx : BuildCtx) (ofs : Int) (pfx suffix : List Char)
    (j : Nat) (hj : j < insertIndex ctx ofs) :
    (sym_insert T ctx ofs pfx suffix).sym j = ctx.sym j := by
  have h := (sym_insert_loop_spec ofs ctx.nsym ctx.sym).2.1 j hj
  have hne : j ≠ (sym_insert_loop ctx.sym ofs ctx.nsym).2 := by
    unfold insertIndex at hj
    omega
  simp only [sym_insert]
  rw [store_other _ _ _ _ hne, h]

theorem sym_insert_above (T : Target) (ctx : BuildCtx) (ofs : Int) (pfx suffix : List Char)
    (j : Nat) (hj : insertIndex ctx ofs ≤ j) (hn : j < ctx.nsym) :
    (sym_insert T ctx ofs pfx suffix).sym (j + 1) = ctx.sym j := by
  have h := (sym_insert_loop_spec ofs ctx.nsym ctx.sym).2.2.1 j hj hn
  have hne : j + 1 ≠ (sym_insert_loop ctx.sym ofs ctx.nsym).2 := by
    unfold insertIndex at hj
    omega
  simp only [sym_insert]
  rw [store_other _ _ _ _ hne, h]

theorem sym_insert_beyond (T : Target) (ctx : BuildCtx) (ofs : Int) (pfx suffix : List Char)
    (j : Nat) (hj : ctx.nsym < j) :
    (sym_insert T ctx ofs pfx suffix).sym j = ctx.sym j := by
  have h := (sym_insert_loop_spec ofs ctx.nsym ctx.sym).2.2.2.1 j hj
  have hle := (sym_insert_loop_spec ofs ctx.nsym ctx.sym).1
  have hne : j ≠ (sym_insert_loop ctx.sym ofs ctx.nsym).2 := by omega
  simp only [sym_insert]
  rw [store_other _ _ _ _ hne, h]

theorem insertIndex_pred_le (ctx : BuildCtx) (ofs : Int) :
    insertIndex ctx ofs = 0 ∨ (ctx.sym (insertIndex ctx ofs - 1)).ofs ≤ ofs :=
  (sym_insert_loop_spec ofs ctx.nsym ctx.sym).2.2.2.2.1

theorem insertIndex_lt_above (ctx : BuildCtx) (ofs : Int) (j : Nat)
    (hj : insertIndex ctx ofs ≤ j) (hn : j < ctx.nsym) : ofs < (ctx.sym j).ofs :=
  (sym_insert_loop_spec ofs ctx.nsym ctx.sym).2.2.2.2.2 j hj hn

theorem cells_getElem? {α : Type} (a : Nat → α) (n i : Nat) :
    (cells a n)[i]? = if i < n then some (a i) else none := by
  unfold cells
  by_cases h : i < n
  · simp [h, List.getElem?_range]
  · simp [h]
    omega

theorem cells_length {α : Type} (a : Nat → α) (n : Nat) : (cells a n).length = n := by
  simp [cells]

theorem cells_succ {α : Type} (a : Nat → α) (n : Nat) : cells a (n + 1) = cells a n ++ [a n] := by
  simp [cells, List.range_succ]

theorem cells_congr {α : Type} (a b : Nat → α) (n : Nat) (h : ∀ i, i < n → a i = b i) :
    cells a n = cells b n := by
  unfold cells
  apply List.map_congr_left
  intro i hi
  exact h i (List.mem_range.mp hi)

/-- The rows after `sym_insert`: the old rows with the new row put in at `insertIndex`. -/
theorem symRows_sym_insert (T : Target) (ctx : BuildCtx) (ofs : Int) (pfx suffix : List Char) :
    symRows (sym_insert T ctx ofs pfx suffix)
      = (symRows ctx).take (insertIndex ctx ofs)
        ++ ⟨ofs, sym_decorate T ctx pfx suffix⟩ :: (symRows ctx).drop (insertIndex ctx ofs) := by
  have hp := insertIndex_le ctx ofs
  apply List.ext_getElem?
  intro i
  unfold symRows
  rw [sym_insert_nsym, cells_getElem?, List.getElem?_append, List.length_take, cells_length,
    Nat.min_eq_left hp]
  rcases Nat.lt_trichotomy i (insertIndex ctx ofs) with h1 | h1 | h1
  · rw [if_pos (show i < ctx.nsym + 1 by omega), if_pos h1, List.getElem?_take, if_pos h1,
      cells_getElem?, if_pos (show i < ctx.nsym by omega),
      sym_insert_below T ctx ofs pfx suffix i h1]
  · subst h1
    rw [if_pos (show insertIndex ctx ofs < ctx.nsym + 1 by omega),
      if_neg (show ¬ insertIndex ctx ofs < insertIndex ctx ofs by omega), Nat.sub_self,
      sym_insert_at]
    simp
  · obtain ⟨k, rfl⟩ : ∃ k, i = k + 1 := ⟨i - 1, by omega⟩
    rw [if_neg (show ¬ k + 1 < insertIndex ctx ofs by omega)]
    have hk : k + 1 - insertIndex ctx ofs = (k - insertIndex ctx ofs) + 1 := by omega
    rw [hk, List.getElem?_cons_succ, List.getElem?_drop, cells_getElem?]
    have hk2 : insertIndex ctx ofs + (k - insertIndex ctx ofs) = k := by omega
    rw [hk2]
    by_cases hkn : k < ctx.nsym
    · rw [if_pos (show k + 1 < ctx.nsym + 1 by omega), if_pos hkn,
        sym_insert_above T ctx ofs pfx suffix k (by omega) hkn]
    · rw [if_neg (show ¬ k + 1 < ctx.nsym + 1 by omega), if_neg hkn]

theorem mem_cells {α : Type} (a : Nat → α) (n : Nat) (x : α) :
    x ∈ cells a n ↔ ∃ i, i < n ∧ a i = x := by
  simp [cells]

theorem toInt32_of_range (x : Int) (h1 : -2147483648 ≤ x) (h2 : x < 2147483648) :
    toInt32 x = x := by
  unfold toInt32
  omega

theorem sym_decorate_congr (T : Target) (ctx ctx' : BuildCtx) (pfx suffix : List Char)
    (h : ctx'.mode = ctx.mode) : sym_decorate T ctx' pfx suffix = sym_decorate T ctx pfx suffix := by
  simp only [sym_decorate, h]

theorem status_word_ne_zero (i : Nat) : Int.ofNat (Nat.lor 0x22000000 i) ≠ 0 := by
  intro h
  have h2 : (0x22000000 ||| i).testBit 25 = true := by
    rw [Nat.testBit_or]
    have : (0x22000000 : Nat).testBit 25 = true := by decide
    rw [this]
    rfl
  have h3 : 0x22000000 ||| i = 0 := by
    have : Nat.lor 0x22000000 i = 0 := Int.ofNat_eq_zero.mp h
    exact this
  rw [h3] at h2
  simp at h2

theorem collect_pclabels_frame (B : Backend) : ∀ (is : List Nat) (ctx : BuildCtx),
    ∃ f, (collect_pclabels B is ctx).2 = { ctx with bc_ofs := f } := by
  intro is
  induction is with
  | nil => intro ctx; exact ⟨ctx.bc_ofs, rfl⟩
  | cons i is ih =>
    intro ctx
    unfold collect_pclabels
    by_cases h : B.pclabel i < 0
    · simp only [h, if_true]
      exact ⟨ctx.bc_ofs, rfl⟩
    · simp only [h, if_false]
      obtain ⟨f, hf⟩ := ih { ctx with bc_ofs := store ctx.bc_ofs i (B.pclabel i) }
      exact ⟨f, hf⟩

theorem collect_pclabels_status (B : Backend) : ∀ (is : List Nat) (ctx : BuildCtx) (st : Int),
    (collect_pclabels B is ctx).1 = some st → st ≠ 0 := by
  intro is
  induction is with
  | nil => intro ctx st h; simp [collect_pclabels] at h
  | cons i is ih =>
    intro ctx st h
    unfold collect_pclabels at h
    by_cases hneg : B.pclabel i < 0
    · simp only [hneg, if_true, Option.some.injEq] at h
      rw [← h]
      exact status_word_ne_zero i
    · simp only [hneg, if_false] at h
      exact ih _ st h

theorem collect_reloc_frame (T : Target) (ctx ctx' : BuildCtx) (addr : Int) (idx : Nat)
    (type v : Int) (h : collect_reloc T ctx addr idx type = Except.ok (ctx', v)) :
    ∃ m rs n r k, ctx' = { ctx with relocmap := m, relocsym := rs, nrelocsym := n,
                                    reloc := r, nreloc := k } := by
  unfold collect_reloc at h
  by_cases hfull : ctx.nreloc ≥ T.BUILD_MAX_RELOC
  · simp [hfull] at h
  · by_cases hneg : ctx.relocmap idx < 0
    · simp only [hfull, hneg, if_false, if_true, Except.ok.injEq, Prod.mk.injEq] at h
      exact ⟨_, _, _, _, _, h.1.symm⟩
    · simp only [hfull, hneg, if_false, Except.ok.injEq, Prod.mk.injEq] at h
      exact ⟨_, _, _, _, _, h.1.symm⟩

theorem collect_relocs_frame (T : Target) : ∀ (qs : List ExternReq) (ctx ctx' : BuildCtx),
    collect_relocs T ctx qs = Except.ok ctx' →
    ∃ m rs n r k, ctx' = { ctx with relocmap := m, relocsym := rs, nrelocsym := n,
                                    reloc := r, nreloc := k } := by
  intro qs
  induction qs with
  | nil =>
    intro ctx ctx' h
    simp only [collect_relocs, Except.ok.injEq] at h
    exact ⟨_, _, _, _, _, h.symm⟩
  | cons q qs ih =>
    intro ctx ctx' h
    unfold collect_relocs at h
    cases hq : collect_reloc T ctx q.addr q.idx q.type with
    | error e => simp [hq] at h
    | ok r =>
      obtain ⟨ctx1, v⟩ := r
      simp only [hq] at h
      obtain ⟨m, rs, n, r, k, h1⟩ := collect_reloc_frame T ctx ctx1 q.addr q.idx q.type v hq
      obtain ⟨m2, rs2, n2, r2, k2, h2⟩ := ih ctx1 ctx' h
      subst h1
      exact ⟨_, _, _, _, _, h2⟩

theorem symRows_sym_insert_perm (T : Target) (ctx : BuildCtx) (ofs : Int)
    (pfx suffix : List Char) :
    List.Perm (symRows (sym_insert T ctx ofs pfx suffix))
      (symRows ctx ++ [⟨ofs, sym_decorate T ctx pfx suffix⟩]) := by
  rw [symRows_sym_insert]
  refine List.Perm.trans List.perm_middle ?_
  rw [List.take_append_drop]
  exact (List.perm_append_singleton _ _).symm

/-- The loop over the globals: it succeeds only if every listed global is defined, leaves all
fields but `nsym` and `sym` alone, and adds one row for each listed global not ending in `_Z`. -/
theorem collect_globals_spec (T : Target) : ∀ (is : List Nat) (ctx ctx' : BuildCtx),
    collect_globals T is ctx = Except.ok ctx' →
    (∃ n sy, ctx' = { ctx with nsym := n, sym := sy }) ∧
    (∀ i, i ∈ is → ctx.glob i ≠ 0) ∧
    ctx'.nsym = ctx.nsym
      + (is.filter (fun i => !(ends_Z (T.globnames.getD i [])))).length ∧
    List.Perm (symRows ctx')
      (symRows ctx ++ (is.filter (fun i => !(ends_Z (T.globnames.getD i [])))).map
        (globalRow T ctx ctx.glob ctx.code)) := by
  intro is
  induction is with
  | nil =>
    intro ctx ctx' h
    simp only [collect_globals, Except.ok.injEq] at h
    subst h
    refine ⟨⟨_, _, rfl⟩, ?_, ?_, ?_⟩
    · intro i hi; simp at hi
    · simp
    · simp
  | cons i is ih =>
    intro ctx ctx' h
    unfold collect_globals at h
    by_cases h0 : ctx.glob i = 0
    · simp [h0] at h
    · by_cases hz : ends_Z (T.globnames.getD i []) = true
      · simp only [h0, hz, if_false, Bool.not_true, Bool.false_eq_true] at h
        obtain ⟨hf, hg, hn, hp⟩ := ih ctx ctx' h
        have hfil : (i :: is).filter (fun i => !(ends_Z (T.globnames.getD i [])))
            = is.filter (fun i => !(ends_Z (T.globnames.getD i []))) := by
          rw [List.filter_cons]
          simp only [hz, Bool.not_true, Bool.false_eq_true, if_false]
        refine ⟨hf, ?_, ?_, ?_⟩
        · intro j hj
          rcases List.mem_cons.mp hj with rfl | hj
          · exact h0
          · exact hg j hj
        · rw [hn, hfil]
        · rw [hfil]
          exact hp
      · have hz2 : ends_Z (T.globnames.getD i []) = false := by simpa using hz
        simp only [h0, hz2, if_false, Bool.not_false, if_true] at h
        obtain ⟨⟨n, sy, hf⟩, hg, hn, hp⟩ := ih _ ctx' h
        have hfil : (i :: is).filter (fun i => !(ends_Z (T.globnames.getD i [])))
            = i :: is.filter (fun i => !(ends_Z (T.globnames.getD i []))) := by
          rw [List.filter_cons]
          simp only [hz2, Bool.not_false, if_true]
        refine ⟨⟨n, sy, hf⟩, ?_, ?_, ?_⟩
        · intro j hj
          rcases List.mem_cons.mp hj with rfl | hj
          · exact h0
          · exact hg j hj
        · rw [hn, sym_insert_nsym, hfil, List.length_cons]
          omega
        · rw [hfil, List.map_cons]
          refine List.Perm.trans hp ?_
          have hrow : globalRow T (sym_insert T ctx (toInt32 (ctx.glob i - ctx.code))
              T.LABEL_PREFIX (T.globnames.getD i []))
              (sym_insert T ctx (toInt32 (ctx.glob i - ctx.code))
                T.LABEL_PREFIX (T.globnames.getD i [])).glob
              (sym_insert T ctx (toInt32 (ctx.glob i - ctx.code))
                T.LABEL_PREFIX (T.globnames.getD i [])).code
              = globalRow T ctx ctx.glob ctx.code := rfl
          rw [hrow]
          refine List.Perm.trans (List.Perm.append_right _
            (symRows_sym_insert_perm T ctx _ T.LABEL_PREFIX (T.globnames.getD i []))) ?_
          rw [List.append_assoc]
          rfl

/-- A run of `build_code` that returns status `0` went through every stage: the loop over the
globals ran on a context with an empty symbol table, and the result is its outcome with
the sentinel inserted and `nsym` decremented. -/
theorem build_code_ok (T : Target) (B : Backend) (c ctx : BuildCtx)
    (h : build_code T B c = Except.ok (0, ctx)) :
    ∃ ctxp ctxg, ctxp.nsym = 0 ∧ ctxp.mode = c.mode ∧ ctxp.glob = B.glob ∧ ctxp.code = B.code ∧
      ctxp.codesz = B.codesz ∧
      collect_globals T (List.range (GLOB__MAX T)) ctxp = Except.ok ctxg ∧
      ctx = { sym_insert T ctxg (toInt32 (ctxg.codesz : Int)) [] [] with
              nsym := (sym_insert T ctxg (toInt32 (ctxg.codesz : Int)) [] []).nsym - 1 } := by
  unfold build_code at h
  simp only at h
  split at h
  · rename_i hl
    simp only [Except.ok.injEq, Prod.mk.injEq] at h
    exact absurd h.1 hl
  · split at h
    · simp at h
    · rename_i ctx3 hr
      obtain ⟨m, rs, n, r, k, h3⟩ := collect_relocs_frame T _ _ _ hr
      split at h
      · rename_i he
        simp only [Except.ok.injEq, Prod.mk.injEq] at h
        exact absurd h.1 he
      · unfold build_symbols at h
        simp only at h
        split at h
        · rename_i st ctx2 hp
          simp only [Except.ok.injEq, Prod.mk.injEq] at h
          have hst := collect_pclabels_status B _ _ st (by rw [hp])
          exact absurd h.1 hst
        · rename_i ctx2 hp
          obtain ⟨f, hf⟩ := collect_pclabels_frame B _ _
          rw [hp] at hf
          simp only at hf
          split at h
          · simp at h
          · rename_i ctxg hg
            simp only [Except.ok.injEq, Prod.mk.injEq, true_and] at h
            subst hf
            subst h3
            refine ⟨_, ctxg, ?_, ?_, ?_, ?_, ?_, hg, h.symm⟩ <;> rfl

theorem sym_decorate_empty (T : Target) (ctx : BuildCtx) :
    sym_decorate T ctx [] [] = marker T ctx.mode := by
  unfold sym_decorate marker
  cases h64 : T.RAVI_64 <;> by_cases hm : ctx.mode = BuildMode.machasm <;>
    by_cases he : ctx.mode = BuildMode.elfasm <;> simp [hm, he]

/-- The rows `0 .. nsym` of a successful run: the rows left by the loop over the globals,
with the sentinel row put in. -/
theorem build_code_rows_perm (T : Target) (B : Backend) (c ctx : BuildCtx)
    (h : build_code T B c = Except.ok (0, ctx)) :
    ctx.nsym = (exportedGlobals T).length ∧
    List.Perm (cells ctx.sym (ctx.nsym + 1))
      ((exportedGlobals T).map (globalRow T c B.glob B.code)
        ++ [⟨toInt32 (B.codesz : Int), sym_decorate T c [] []⟩]) := by
  obtain ⟨ctxp, ctxg, hn0, hmode, hgl, hcode, hcsz, hg, hctx⟩ := build_code_ok T B c ctx h
  obtain ⟨⟨n, sy, hf⟩, _, hn, hp⟩ := collect_globals_spec T _ ctxp ctxg hg
  have hgsz : ctxg.codesz = B.codesz := by rw [hf]; exact hcsz
  have hgmode : ctxg.mode = c.mode := by rw [hf]; exact hmode
  have hrow : globalRow T ctxp ctxp.glob ctxp.code = globalRow T c B.glob B.code := by
    funext i
    simp only [globalRow, hgl, hcode, sym_decorate_congr T c ctxp _ _ hmode]
  have hrows0 : symRows ctxp = [] := by simp [symRows, cells, hn0]
  rw [hrows0, hrow, List.nil_append] at hp
  rw [hn0, Nat.zero_add] at hn
  have hnsym : ctx.nsym = ctxg.nsym := by
    rw [hctx]
    simp [sym_insert_nsym]
  have hsym : ctx.sym = (sym_insert T ctxg (toInt32 (ctxg.codesz : Int)) [] []).sym := by
    rw [hctx]
  refine ⟨by rw [hnsym, hn]; rfl, ?_⟩
  have hcells : cells ctx.sym (ctx.nsym + 1)
      = symRows (sym_insert T ctxg (toInt32 (ctxg.codesz : Int)) [] []) := by
    rw [hsym, hnsym]
    rfl
  rw [hcells]
  refine List.Perm.trans (symRows_sym_insert_perm T ctxg _ [] []) ?_
  rw [hgsz, sym_decorate_congr T c ctxg _ _ hgmode]
  exact List.Perm.append_right _ hp

/-! ## Lemmas on `collect_reloc` -/

theorem collect_reloc_ok (T : Target) (ctx : BuildCtx) (addr : Int) (idx : Nat) (type : Int)
    (h : ctx.nreloc < T.BUILD_MAX_RELOC) :
    collect_reloc T ctx addr idx type = Except.ok
      ({ (if ctx.relocmap idx < 0 then
            { ctx with
              relocmap := store ctx.relocmap idx (ctx.nrelocsym : Int)
              relocsym := store ctx.relocsym ctx.nrelocsym
                (sym_decorate T ctx [] (T.extnames.getD idx []))
              nrelocsym := ctx.nrelocsym + 1 }
          else ctx) with
         reloc := store ctx.reloc ctx.nreloc
           ⟨toInt32 (addr - ctx.code),
            (if ctx.relocmap idx < 0 then (ctx.nrelocsym : Int) else ctx.relocmap idx), type⟩
         nreloc := ctx.nreloc + 1 }, 0) := by
  unfold collect_reloc
  rw [if_neg (by omega)]
  by_cases hneg : ctx.relocmap idx < 0
  · simp only [hneg, if_true, store_same]
  · simp only [hneg, if_false]

theorem collect_reloc_full (T : Target) (ctx : BuildCtx) (addr : Int) (idx : Nat) (type : Int)
    (h : T.BUILD_MAX_RELOC ≤ ctx.nreloc) :
    collect_reloc T ctx addr idx type = Except.error ⟨1, relocOverflowMsg, ctx⟩ := by
  unfold collect_reloc
  rw [if_pos h]

theorem cells_store_next {α : Type} (a : Nat → α) (n : Nat) (v : α) :
    cells (store a n v) (n + 1) = cells a n ++ [v] := by
  rw [cells_succ, store_same]
  congr 1
  apply cells_congr
  intro i hi
  exact store_other a n i v (by omega)

/-- One successful `collect_reloc` call keeps the interner in agreement with the indices met:
a new index is appended to them, a known one changes nothing. -/
theorem Interned.step (T : Target) (ctx ctx' : BuildCtx) (seen : List Nat) (addr : Int)
    (idx : Nat) (type v : Int) (hI : Interned T ctx seen) (hidx : idx < NRELOCSYM T)
    (h : collect_reloc T ctx addr idx type = Except.ok (ctx', v)) :
    Interned T ctx' (if idx ∈ seen then seen else seen ++ [idx]) ∧
    ctx'.mode = ctx.mode ∧ ctx'.nreloc = ctx.nreloc + 1 := by
  obtain ⟨hn, hnd, hsym, hmap, hun⟩ := hI
  have hroom : ctx.nreloc < T.BUILD_MAX_RELOC := by
    by_contra hfull
    rw [collect_reloc_full T ctx addr idx type (by omega)] at h
    simp at h
  rw [collect_reloc_ok T ctx addr idx type hroom] at h
  simp only [Except.ok.injEq, Prod.mk.injEq] at h
  obtain ⟨h, _⟩ := h
  by_cases hneg : ctx.relocmap idx < 0
  · have hnot : idx ∉ seen := by
      intro hmem
      have := hmap idx hmem
      omega
    simp only [hneg, if_true] at h
    subst h
    rw [if_neg hnot]
    refine ⟨⟨?_, ?_, ?_, ?_, ?_⟩, rfl, rfl⟩
    · simp [hn]
    · rw [List.nodup_append]
      refine ⟨hnd, List.nodup_singleton _, ?_⟩
      intro a ha hb
      rw [List.mem_singleton] at hb
      subst hb
      exact hnot ha
    · show cells (store ctx.relocsym ctx.nrelocsym _) (ctx.nrelocsym + 1) = _
      rw [cells_store_next, hsym, List.map_append]
      rfl
    · intro i hi
      show store ctx.relocmap idx (ctx.nrelocsym : Int) i = _
      by_cases hii : i = idx
      · subst hii
        rw [store_same, List.indexOf_append_of_not_mem hnot, List.indexOf_cons_self, hn]
        simp
      · have hmem : i ∈ seen := by
          rcases List.mem_append.mp hi with hm | hm
          · exact hm
          · exact absurd (List.mem_singleton.mp hm) hii
        rw [store_other _ _ _ _ hii, List.indexOf_append_of_mem hmem]
        exact hmap i hmem
    · intro i hi hni
      show store ctx.relocmap idx (ctx.nrelocsym : Int) i < 0
      have hii : i ≠ idx := by
        intro he
        exact hni (List.mem_append.mpr (Or.inr (by simp [he])))
      rw [store_other _ _ _ _ hii]
      exact hun i hi (fun hm => hni (List.mem_append.mpr (Or.inl hm)))
  · have hmem : idx ∈ seen := by
      by_contra hnot
      exact hneg (hun idx hidx hnot)
    simp only [hneg, if_false] at h
    subst h
    rw [if_pos hmem]
    exact ⟨⟨hn, hnd, hsym, hmap, hun⟩, rfl, rfl⟩

theorem collect_reloc_error (T : Target) (ctx : BuildCtx) (addr : Int) (idx : Nat) (type : Int)
    (e : Fatal) (h : collect_reloc T ctx addr idx type = Except.error e) :
    T.BUILD_MAX_RELOC ≤ ctx.nreloc ∧ e = ⟨1, relocOverflowMsg, ctx⟩ := by
  by_cases hfull : T.BUILD_MAX_RELOC ≤ ctx.nreloc
  · rw [collect_reloc_full T ctx addr idx type hfull] at h
    simp only [Except.error.injEq] at h
    exact ⟨hfull, h.symm⟩
  · rw [collect_reloc_ok T ctx addr idx type (by omega)] at h
    simp at h

theorem collect_reloc_returns (T : Target) (ctx ctx' : BuildCtx) (addr : Int) (idx : Nat)
    (type v : Int) (h : collect_reloc T ctx addr idx type = Except.ok (ctx', v)) :
    ctx.nreloc < T.BUILD_MAX_RELOC ∧ v = 0 ∧ ctx'.nreloc = ctx.nreloc + 1 ∧
    ctx'.reloc = store ctx.reloc ctx.nreloc
      ⟨toInt32 (addr - ctx.code), ctx'.relocmap idx, type⟩ ∧
    ctx'.relocmap idx = (if ctx.relocmap idx < 0 then (ctx.nrelocsym : Int)
      else ctx.relocmap idx) := by
  have hroom : ctx.nreloc < T.BUILD_MAX_RELOC := by
    by_contra hfull
    rw [collect_reloc_full T ctx addr idx type (by omega)] at h
    simp at h
  rw [collect_reloc_ok T ctx addr idx type hroom] at h
  simp only [Except.ok.injEq, Prod.mk.injEq] at h
  obtain ⟨h, hv⟩ := h
  subst h
  refine ⟨hroom, hv.symm, rfl, ?_, ?_⟩
  · by_cases hneg : ctx.relocmap idx < 0
    · simp only [hneg, if_true, store_same]
    · simp only [hneg, if_false]
  · by_cases hneg : ctx.relocmap idx < 0
    · simp only [hneg, if_true, store_same]
    · simp only [hneg, if_false]

theorem collect_relocs_count (T : Target) : ∀ (qs : List ExternReq) (ctx ctx' : BuildCtx),
    collect_relocs T ctx qs = Except.ok ctx' →
    ctx'.nreloc = ctx.nreloc + qs.length ∧
    (ctx.nreloc ≤ T.BUILD_MAX_RELOC → ctx'.nreloc ≤ T.BUILD_MAX_RELOC) := by
  intro qs
  induction qs with
  | nil =>
    intro ctx ctx' h
    simp only [collect_relocs, Except.ok.injEq] at h
    subst h
    exact ⟨rfl, fun h => h⟩
  | cons q qs ih =>
    intro ctx ctx' h
    rw [collect_relocs] at h
    split at h
    · simp at h
    · rename_i ctx1 v hq
      obtain ⟨hroom, _, hn, _, _⟩ := collect_reloc_returns T ctx ctx1 q.addr q.idx q.type v hq
      obtain ⟨h1, h2⟩ := ih ctx1 ctx' h
      refine ⟨by rw [h1, hn, List.length_cons]; omega, fun _ => h2 (by omega)⟩

theorem collect_relocs_error (T : Target) : ∀ (qs : List ExternReq) (ctx : BuildCtx) (e : Fatal),
    collect_relocs T ctx qs = Except.error e →
    e.status = 1 ∧ e.stderr = relocOverflowMsg := by
  intro qs
  induction qs with
  | nil =>
    intro ctx e h
    simp [collect_relocs] at h
  | cons q qs ih =>
    intro ctx e h
    rw [collect_relocs] at h
    split at h
    · rename_i e1 hq
      simp only [Except.error.injEq] at h
      subst h
      obtain ⟨_, he⟩ := collect_reloc_error T ctx q.addr q.idx q.type e1 hq
      subst he
      exact ⟨rfl, rfl⟩
    · exact ih _ e h

/-! ## Results -/

/-- C1: if the first `nsym` rows of the symbol table are ascending by offset, then after
`sym_insert` the table has `nsym + 1` rows and these are again ascending by offset. -/
theorem sym_insert_sorted (T : Target) (ctx : BuildCtx) (ofs : Int) (pfx suffix : List Char)
    (h : SortedUpTo ctx.sym ctx.nsym) :
    (sym_insert T ctx ofs pfx suffix).nsym = ctx.nsym + 1 ∧
    SortedUpTo (sym_insert T ctx ofs pfx suffix).sym (sym_insert T ctx ofs pfx suffix).nsym := by
  refine ⟨rfl, ?_⟩
  intro i hi
  rw [sym_insert_nsym] at hi
  have hp := insertIndex_le ctx ofs
  rcases Nat.lt_trichotomy (i + 1) (insertIndex ctx ofs) with h1 | h1 | h1
  · rw [sym_insert_below T ctx ofs pfx suffix i (by omega),
      sym_insert_below T ctx ofs pfx suffix (i + 1) h1]
    exact h i (by omega)
  · rw [sym_insert_below T ctx ofs pfx suffix i (by omega), h1, sym_insert_at]
    rcases insertIndex_pred_le ctx ofs with h0 | h0
    · omega
    · have : insertIndex ctx ofs - 1 = i := by omega
      rw [this] at h0
      exact h0
  · by_cases h2 : i = insertIndex ctx ofs
    · rw [h2, sym_insert_at, sym_insert_above T ctx ofs pfx suffix _ (le_refl _) (by omega)]
      exact le_of_lt (insertIndex_lt_above ctx ofs _ (le_refl _) (by omega))
    · obtain ⟨k, rfl⟩ : ∃ k, i = k + 1 := ⟨i - 1, by omega⟩
      rw [sym_insert_above T ctx ofs pfx suffix k (by omega) (by omega),
        sym_insert_above T ctx ofs pfx suffix (k + 1) (by omega) (by omega)]
      exact h k (by omega)

/-- Witness for C1: inserting offset `20` into the rows `10, 40`. -/
theorem sym_insert_sorted_witness :
    SortedUpTo twoRowCtx.sym twoRowCtx.nsym ∧
    (sym_insert sampleTarget twoRowCtx 20 [] "c".toList).nsym = twoRowCtx.nsym + 1 ∧
    SortedUpTo (sym_insert sampleTarget twoRowCtx 20 [] "c".toList).sym
      (sym_insert sampleTarget twoRowCtx 20 [] "c".toList).nsym :=
  have h : SortedUpTo twoRowCtx.sym twoRowCtx.nsym := by
    intro i hi
    have hi0 : i = 0 := by
      simp only [twoRowCtx] at hi
      omega
    subst hi0
    decide
  ⟨h, sym_insert_sorted sampleTarget twoRowCtx 20 [] "c".toList h⟩

/-- C4, refuted as stated: on a 64-bit target in mode `machasm` the sentinel row of the
end-to-end scenario is named `_`, not the empty string. -/
theorem sentinel_name_counterexample :
    (symTable (build_code sampleTarget sampleBackend machasmCtx)).bind List.getLast?
      = some ⟨100, "_".toList⟩ ∧
    ((symTable (build_code sampleTarget sampleBackend machasmCtx)).bind List.getLast?).map
      BuildSym.name ≠ some [] := by
  decide

/-- C4, amended: the name of the sentinel row is the result of `sym_decorate` on two empty
strings, which is the marker alone: `_` when the target is 64-bit and the mode is `machasm`,
or the target is 32-bit and the mode is not `elfasm`, and the empty string otherwise. Every
run of `build_code` that returns `0` leaves a row with that name and the converted code size
as offset among the rows `0 .. nsym`. -/
theorem build_code_sentinel_name (T : Target) (B : Backend) (c ctx : BuildCtx)
    (h : build_code T B c = Except.ok (0, ctx)) :
    sym_decorate T c [] [] = marker T c.mode ∧
    (marker T c.mode = [] ↔
      ¬ ((T.RAVI_64 = true ∧ c.mode = BuildMode.machasm) ∨
         (T.RAVI_64 = false ∧ c.mode ≠ BuildMode.elfasm))) ∧
    ∃ p, p ≤ ctx.nsym ∧ ctx.sym p = ⟨toInt32 (B.codesz : Int), marker T c.mode⟩ := by
  refine ⟨sym_decorate_empty T c, ?_, ?_⟩
  · unfold marker
    by_cases hc : (T.RAVI_64 = true ∧ c.mode = BuildMode.machasm) ∨
        (T.RAVI_64 = false ∧ c.mode ≠ BuildMode.elfasm)
    · simp [hc]
    · simp [hc]
  · have hperm := (build_code_rows_perm T B c ctx h).2
    have hmem : (⟨toInt32 (B.codesz : Int), marker T c.mode⟩ : BuildSym)
        ∈ cells ctx.sym (ctx.nsym + 1) := by
      rw [hperm.mem_iff, ← sym_decorate_empty T c]
      simp
    obtain ⟨p, hp, hrow⟩ := (mem_cells _ _ _).mp hmem
    exact ⟨p, by omega, hrow⟩

/-- Witness for C4: the end-to-end scenario in mode `elfasm`. -/
theorem build_code_sentinel_name_witness :
    build_code sampleTarget sampleBackend sampleCtx
      = Except.ok (0, resultCtx (build_code sampleTarget sampleBackend sampleCtx)) ∧
    sym_decorate sampleTarget sampleCtx [] [] = marker sampleTarget sampleCtx.mode :=
  ⟨rfl, (build_code_sentinel_name sampleTarget sampleBackend sampleCtx _ rfl).1⟩

/-- C8, refuted as stated: a reference `2^31` bytes behind the start of the code buffer is
recorded with offset `-2^31`, not with `addr - code`. -/
theorem reloc_offset_counterexample :
    sampleCtx.nreloc < sampleTarget.BUILD_MAX_RELOC ∧
    (relocAt (collect_reloc sampleTarget sampleCtx (sampleCtx.code + 2147483648) 0 1)
      sampleCtx.nreloc).map BuildReloc.ofs = some (-2147483648) ∧
    (relocAt (collect_reloc sampleTarget sampleCtx (sampleCtx.code + 2147483648) 0 1)
      sampleCtx.nreloc).map BuildReloc.ofs
      ≠ some ((sampleCtx.code + 2147483648) - sampleCtx.code) := by
  decide

/-- C8, amended: a `collect_reloc` call that returns has returned `0` and appended one
relocation entry at index `nreloc` (`nreloc` grows by one): its `ofs` is `addr - code`
converted to `int32_t`, which is `addr - code` itself whenever that difference lies in
`[-2^31, 2^31)`, its `sym` is the local id of `idx` (the id just assigned when `idx` was
unseen, the id assigned before otherwise), its `type` is the kind passed in. Every other
relocation entry is unchanged. -/
theorem collect_reloc_appends (T : Target) (ctx ctx' : BuildCtx) (addr : Int) (idx : Nat)
    (type v : Int) (h : collect_reloc T ctx addr idx type = Except.ok (ctx', v)) :
    v = 0 ∧ ctx'.nreloc = ctx.nreloc + 1 ∧
    ctx'.reloc ctx.nreloc = ⟨toInt32 (addr - ctx.code), ctx'.relocmap idx, type⟩ ∧
    (-2147483648 ≤ addr - ctx.code → addr - ctx.code < 2147483648 →
      (ctx'.reloc ctx.nreloc).ofs = addr - ctx.code) ∧
    ctx'.relocmap idx
      = (if ctx.relocmap idx < 0 then (ctx.nrelocsym : Int) else ctx.relocmap idx) ∧
    (∀ j, j ≠ ctx.nreloc → ctx'.reloc j = ctx.reloc j) := by
  obtain ⟨_, hv, hn, hr, hid⟩ := collect_reloc_returns T ctx ctx' addr idx type v h
  refine ⟨hv, hn, by rw [hr, store_same], ?_, hid, ?_⟩
  · intro h1 h2
    rw [hr, store_same]
    exact toInt32_of_range _ h1 h2
  · intro j hj
    rw [hr, store_other _ _ _ _ hj]

/-- Witness for C8: the first request after the initialisation, at code offset `12`. -/
theorem collect_reloc_appends_witness :
    collect_reloc sampleTarget (build_init sampleTarget sampleCtx) 4108 0 1
      = Except.ok (returned
          (collect_reloc sampleTarget (build_init sampleTarget sampleCtx) 4108 0 1)) ∧
    (returned (collect_reloc sampleTarget (build_init sampleTarget sampleCtx) 4108 0 1)).1.reloc 0
      = ⟨12, 0, 1⟩ :=
  ⟨rfl, by
    have h := (collect_reloc_appends sampleTarget (build_init sampleTarget sampleCtx)
      (returned (collect_reloc sampleTarget (build_init sampleTarget sampleCtx) 4108 0 1)).1
      4108 0 1
      (returned (collect_reloc sampleTarget (build_init sampleTarget sampleCtx) 4108 0 1)).2
      rfl).2.2.1
    rw [show (build_init sampleTarget sampleCtx).nreloc = 0 from rfl] at h
    rw [h]
    decide⟩

/-- C9: `collect_reloc` ends the process exactly when `nreloc >= BUILD_MAX_RELOC` on entry, and
then with exit status `1` and the context as it was on entry (nothing appended). A call that
returns writes the relocation at index `nreloc < BUILD_MAX_RELOC` and leaves every cell from
`BUILD_MAX_RELOC` on alone, so `nreloc <= BUILD_MAX_RELOC` is kept by every call and by every
run of requests. A run of more than `BUILD_MAX_RELOC` requests, in particular one with more
than `BUILD_MAX_RELOC` distinct indices, ends with the capacity diagnostic and status `1`. -/
theorem collect_reloc_capacity :
    (∀ (T : Target) (ctx : BuildCtx) (addr : Int) (idx : Nat) (type : Int),
      ((∃ e, collect_reloc T ctx addr idx type = Except.error e)
        ↔ T.BUILD_MAX_RELOC ≤ ctx.nreloc) ∧
      (exitStatus (collect_reloc T ctx addr idx type) = some 1
        ↔ T.BUILD_MAX_RELOC ≤ ctx.nreloc) ∧
      (∀ e, collect_reloc T ctx addr idx type = Except.error e →
        e.status = 1 ∧ e.ctx = ctx) ∧
      (∀ ctx' v, collect_reloc T ctx addr idx type = Except.ok (ctx', v) →
        ctx.nreloc < T.BUILD_MAX_RELOC ∧ ctx'.nreloc ≤ T.BUILD_MAX_RELOC ∧
        ctx'.reloc = store ctx.reloc ctx.nreloc (ctx'.reloc ctx.nreloc) ∧
        ∀ j, T.BUILD_MAX_RELOC ≤ j → ctx'.reloc j = ctx.reloc j)) ∧
    (∀ (T : Target) (ctx ctx' : BuildCtx) (qs : List ExternReq),
      ctx.nreloc ≤ T.BUILD_MAX_RELOC → collect_relocs T ctx qs = Except.ok ctx' →
      ctx'.nreloc ≤ T.BUILD_MAX_RELOC) ∧
    (∀ (T : Target) (ctx : BuildCtx) (qs : List ExternReq),
      (T.BUILD_MAX_RELOC < qs.length ∨
        T.BUILD_MAX_RELOC < (qs.map ExternReq.idx).toFinset.card) →
      exitStatus (collect_relocs T ctx qs) = some 1 ∧
      diagnostic (collect_relocs T ctx qs) = some relocOverflowMsg) := by
  refine ⟨?_, ?_, ?_⟩
  · intro T ctx addr idx type
    have hiff : (∃ e, collect_reloc T ctx addr idx type = Except.error e)
        ↔ T.BUILD_MAX_RELOC ≤ ctx.nreloc := by
      constructor
      · rintro ⟨e, he⟩
        exact (collect_reloc_error T ctx addr idx type e he).1
      · intro hfull
        exact ⟨_, collect_reloc_full T ctx addr idx type hfull⟩
    refine ⟨hiff, ?_, ?_, ?_⟩
    · constructor
      · intro hst
        cases hc : collect_reloc T ctx addr idx type with
        | error e => exact hiff.mp ⟨e, hc⟩
        | ok r => rw [hc] at hst; simp [exitStatus] at hst
      · intro hfull
        rw [collect_reloc_full T ctx addr idx type hfull]
        rfl
    · intro e he
      obtain ⟨_, h2⟩ := collect_reloc_error T ctx addr idx type e he
      subst h2
      exact ⟨rfl, rfl⟩
    · intro ctx' v hok
      obtain ⟨hroom, _, hn, hr, _⟩ := collect_reloc_returns T ctx ctx' addr idx type v hok
      refine ⟨hroom, by omega, ?_, ?_⟩
      · rw [hr, store_same]
      · intro j hj
        rw [hr, store_other _ _ _ _ (by omega)]
  · intro T ctx ctx' qs hle hok
    exact (collect_relocs_count T qs ctx ctx' hok).2 hle
  · intro T ctx qs hlen
    have hlen2 : T.BUILD_MAX_RELOC < qs.length := by
      rcases hlen with h | h
      · exact h
      · have h1 := List.toFinset_card_le (qs.map ExternReq.idx)
        rw [List.length_map] at h1
        omega
    cases hc : collect_relocs T ctx qs with
    | error e =>
      obtain ⟨h1, h2⟩ := collect_relocs_error T qs ctx e hc
      simp [exitStatus, diagnostic, h1, h2]
    | ok ctx' =>
      exfalso
      obtain ⟨h1, _⟩ := collect_relocs_count T qs ctx ctx' hc
      have hne : qs ≠ [] := by
        intro h0
        rw [h0] at hlen2
        simp at hlen2
      have hlast : ctx'.nreloc ≤ T.BUILD_MAX_RELOC := by
        clear h1 hlen hlen2
        induction qs generalizing ctx with
        | nil => exact absurd rfl hne
        | cons q qs ih =>
          rw [collect_relocs] at hc
          split at hc
          · simp at hc
          · rename_i ctx1 v hq
            obtain ⟨hroom, _, hn, _, _⟩ :=
              collect_reloc_returns T ctx ctx1 q.addr q.idx q.type v hq
            exact (collect_relocs_count T qs ctx1 ctx' hc).2 (by omega)
      omega

/-- Witness for C9: the call on the full relocation array of `fullCtx`. -/
theorem collect_reloc_capacity_witness :
    sampleTarget.BUILD_MAX_RELOC ≤ fullCtx.nreloc ∧
    exitStatus (collect_reloc sampleTarget fullCtx 4108 1 1) = some 1 :=
  ⟨by decide, ((collect_reloc_capacity.1 sampleTarget fullCtx 4108 1 1).2.1).mpr (by decide)⟩

/-- C10, refuted as stated: when the request for `qsort` finds all `200` cells of the relocation
array in use, the diagnostic is the fixed text, which contains neither the symbol name nor the
count `200` (which is also the capacity). -/
theorem diagnostic_context_counterexample :
    sampleTarget.extnames.getD 1 [] = "qsort".toList ∧
    (Nat.repr fullCtx.nreloc).toList = "200".toList ∧
    (Nat.repr sampleTarget.BUILD_MAX_RELOC).toList = "200".toList ∧
    diagnostic (collect_reloc sampleTarget fullCtx 4108 1 1) = some relocOverflowMsg ∧
    ¬ ("qsort".toList <:+: relocOverflowMsg) ∧
    ¬ ("200".toList <:+: relocOverflowMsg) := by
  decide

/-- C10, amended: when `collect_reloc` fails because the relocation capacity is exceeded, it
exits with status `1` and the diagnostic is the fixed text
`Error: too many relocations, increase BUILD_MAX_RELOC.`, the same for every symbol, count
and capacity. -/
theorem collect_reloc_diagnostic (T : Target) (ctx : BuildCtx) (addr : Int) (idx : Nat)
    (type : Int) (e : Fatal) (h : collect_reloc T ctx addr idx type = Except.error e) :
    e.status = 1 ∧
    e.stderr = "Error: too many relocations, increase BUILD_MAX_RELOC.\n".toList := by
  obtain ⟨_, he⟩ := collect_reloc_error T ctx addr idx type e h
  subst he
  exact ⟨rfl, rfl⟩

/-- Witness for C10: the request for `qsort` on the full relocation array. -/
theorem collect_reloc_diagnostic_witness :
    collect_reloc sampleTarget fullCtx 4108 1 1 = Except.error ⟨1, relocOverflowMsg, fullCtx⟩ ∧
    (1 : Nat) = 1 ∧
    relocOverflowMsg = "Error: too many relocations, increase BUILD_MAX_RELOC.\n".toList :=
  ⟨rfl, collect_reloc_diagnostic sampleTarget fullCtx 4108 1 1 ⟨1, relocOverflowMsg, fullCtx⟩ rfl⟩

/-! ## Lemmas on `sym_decorate` -/

theorem not_at_mem_marker (T : Target) (mode : BuildMode) : '@' ∉ marker T mode := by
  unfold marker
  split <;> decide

theorem marker_eq_iff (T : Target) (mode : BuildMode) :
    (marker T mode = ['_'] ↔
      ((T.RAVI_64 = true ∧ mode = BuildMode.machasm) ∨
       (T.RAVI_64 = false ∧ mode ≠ BuildMode.elfasm))) ∧
    (marker T mode = [] ↔
      ¬ ((T.RAVI_64 = true ∧ mode = BuildMode.machasm) ∨
         (T.RAVI_64 = false ∧ mode ≠ BuildMode.elfasm))) := by
  unfold marker
  by_cases hc : (T.RAVI_64 = true ∧ mode = BuildMode.machasm) ∨
      (T.RAVI_64 = false ∧ mode ≠ BuildMode.elfasm)
  · simp [hc]
  · simp [hc]

/-- The body of `sym_decorate` with the marker named. -/
theorem sym_decorate_eq (T : Target) (ctx : BuildCtx) (pfx suffix : List Char) :
    sym_decorate T ctx pfx suffix =
      if '@' ∈ pfx ++ suffix then
        if T.RAVI_TARGET_X86ORX64 = true ∧ T.RAVI_64 = false ∧
            (ctx.mode = BuildMode.coffasm ∨ ctx.mode = BuildMode.peobj) then
          setLead (marker T ctx.mode ++ (pfx ++ suffix))
        else
          marker T ctx.mode ++ (pfx ++ suffix).takeWhile (fun c => c ≠ '@')
      else
        marker T ctx.mode ++ (pfx ++ suffix) := by
  have hpre : (if T.RAVI_64 then (if ctx.mode = BuildMode.machasm then ['_'] else [])
      else (if ctx.mode ≠ BuildMode.elfasm then ['_'] else [])) = marker T ctx.mode := by
    unfold marker
    cases h64 : T.RAVI_64 <;> by_cases hm : ctx.mode = BuildMode.machasm <;>
      by_cases he : ctx.mode = BuildMode.elfasm <;> simp [hm, he]
  have hmem : ('@' ∈ marker T ctx.mode ++ pfx ++ suffix) ↔ ('@' ∈ pfx ++ suffix) := by
    rw [List.append_assoc, List.mem_append]
    constructor
    · rintro (h | h)
      · exact absurd h (not_at_mem_marker T ctx.mode)
      · exact h
    · exact Or.inr
  have htake : (marker T ctx.mode ++ pfx ++ suffix).takeWhile (fun c => decide (c ≠ '@'))
      = marker T ctx.mode ++ (pfx ++ suffix).takeWhile (fun c => decide (c ≠ '@')) := by
    rw [List.append_assoc]
    apply List.takeWhile_append_of_pos
    intro a ha
    have : a ≠ '@' := fun h => not_at_mem_marker T ctx.mode (h ▸ ha)
    simpa using this
  have htake2 : (marker T ctx.mode ++ (pfx ++ suffix)).takeWhile (fun c => !decide (c = '@'))
      = marker T ctx.mode ++ (pfx ++ suffix).takeWhile (fun c => !decide (c = '@')) := by
    simpa [List.append_assoc] using htake
  unfold sym_decorate
  simp only [hpre]
  by_cases hat : '@' ∈ pfx ++ suffix
  · rw [if_pos (hmem.mpr hat), if_pos hat]
    cases hx : T.RAVI_TARGET_X86ORX64
    · simp [htake2]
    · cases h64 : T.RAVI_64
      · by_cases hm : ctx.mode = BuildMode.coffasm ∨ ctx.mode = BuildMode.peobj
        · rcases hm with hm | hm <;> simp [hm, List.append_assoc]
        · have h1 : ctx.mode ≠ BuildMode.coffasm := fun h => hm (Or.inl h)
          have h2 : ctx.mode ≠ BuildMode.peobj := fun h => hm (Or.inr h)
          simp [h1, h2, htake2]
      · simp [htake2]
  · rw [if_neg (fun h => hat (hmem.mp h)), if_neg hat, List.append_assoc]

/-- The function with its buffer returns what `sym_decorate` describes when the marker, the
raw name and the terminating NUL fit the buffer, and overruns the buffer otherwise. -/
theorem sym_decorate_buf_eq (T : Target) (ctx : BuildCtx) (pfx suffix : List Char) :
    sym_decorate_buf T ctx pfx suffix =
      if (marker T ctx.mode).length + (pfx ++ suffix).length < NAME_SIZE then
        some (sym_decorate T ctx pfx suffix)
      else none := by
  have hpre : (if T.RAVI_64 then (if ctx.mode = BuildMode.machasm then ['_'] else [])
      else (if ctx.mode ≠ BuildMode.elfasm then ['_'] else [])) = marker T ctx.mode := by
    unfold marker
    cases h64 : T.RAVI_64 <;> by_cases hm : ctx.mode = BuildMode.machasm <;>
      by_cases he : ctx.mode = BuildMode.elfasm <;> simp [hm, he]
  have hlen : (marker T ctx.mode ++ pfx ++ suffix).length
      = (marker T ctx.mode).length + (pfx ++ suffix).length := by
    simp only [List.length_append]
    omega
  unfold sym_decorate_buf sym_decorate
  simp only [hpre, hlen]
  by_cases hfit : (marker T ctx.mode).length + (pfx ++ suffix).length < NAME_SIZE
  · rw [if_neg (by omega), if_pos hfit]
    split
    · split
      · split <;> rfl
      · rfl
    · rfl
  · rw [if_pos (by omega), if_neg hfit]

/-! ## Results on `sym_decorate` -/

/-- C11, refuted as stated: a raw name of 255 characters without `@` is returned unchanged in
mode `elfasm`, but for a raw name of 300 characters `sprintf` writes 301 bytes into
`name[256]`, and `sym_decorate` does not return the marker followed by the raw name. -/
theorem plain_name_overrun_counterexample :
    '@' ∉ ([] : List Char) ++ List.replicate 300 'a' ∧
    sym_decorate_buf sampleTarget sampleCtx [] (List.replicate 255 'a')
      = some (List.replicate 255 'a') ∧
    sym_decorate_buf sampleTarget sampleCtx [] (List.replicate 300 'a') = none ∧
    sym_decorate_buf sampleTarget sampleCtx [] (List.replicate 300 'a')
      ≠ some (marker sampleTarget sampleCtx.mode ++ ([] ++ List.replicate 300 'a')) := by
  have h255 : '@' ∉ ([] : List Char) ++ List.replicate 255 'a' := by
    rw [List.nil_append]
    intro h
    exact absurd (List.eq_of_mem_replicate h) (by decide)
  have h300 : '@' ∉ ([] : List Char) ++ List.replicate 300 'a' := by
    rw [List.nil_append]
    intro h
    exact absurd (List.eq_of_mem_replicate h) (by decide)
  have hm : (marker sampleTarget sampleCtx.mode).length = 0 := by decide
  have hnone : sym_decorate_buf sampleTarget sampleCtx [] (List.replicate 300 'a') = none := by
    rw [sym_decorate_buf_eq, if_neg]
    rw [hm, List.nil_append, List.length_replicate]
    decide
  refine ⟨h300, ?_, hnone, by rw [hnone]; exact (Option.some_ne_none _).symm⟩
  rw [sym_decorate_buf_eq, if_pos, sym_decorate_eq, if_neg h255]
  · rfl
  · rw [hm, List.nil_append, List.length_replicate]
    decide

/-- C11, amended: for a raw name `pfx ++ suffix` without `@` that fits the buffer, the marker
and the raw name being at most `255` characters, `sym_decorate` returns the marker followed by
the raw name unchanged, and in mode `elfasm` the raw name itself; a longer name overruns the
buffer. The marker is `_` exactly when the target is 64-bit and the mode is `machasm`, or the
target is 32-bit and the mode is not `elfasm`, and is empty otherwise. -/
theorem sym_decorate_plain (T : Target) (ctx : BuildCtx) (pfx suffix : List Char)
    (h : '@' ∉ pfx ++ suffix) :
    ((marker T ctx.mode).length + (pfx ++ suffix).length < NAME_SIZE →
      sym_decorate_buf T ctx pfx suffix = some (marker T ctx.mode ++ (pfx ++ suffix)) ∧
      (ctx.mode = BuildMode.elfasm →
        sym_decorate_buf T ctx pfx suffix = some (pfx ++ suffix))) ∧
    (NAME_SIZE ≤ (marker T ctx.mode).length + (pfx ++ suffix).length →
      sym_decorate_buf T ctx pfx suffix = none) ∧
    (marker T ctx.mode = ['_'] ↔
      ((T.RAVI_64 = true ∧ ctx.mode = BuildMode.machasm) ∨
       (T.RAVI_64 = false ∧ ctx.mode ≠ BuildMode.elfasm))) ∧
    (marker T ctx.mode = [] ↔
      ¬ ((T.RAVI_64 = true ∧ ctx.mode = BuildMode.machasm) ∨
         (T.RAVI_64 = false ∧ ctx.mode ≠ BuildMode.elfasm))) := by
  refine ⟨?_, ?_, (marker_eq_iff T ctx.mode).1, (marker_eq_iff T ctx.mode).2⟩
  · intro hfit
    have h1 : sym_decorate_buf T ctx pfx suffix = some (marker T ctx.mode ++ (pfx ++ suffix)) := by
      rw [sym_decorate_buf_eq, if_pos hfit, sym_decorate_eq, if_neg h]
    refine ⟨h1, ?_⟩
    intro he
    rw [h1]
    have : marker T ctx.mode = [] := by
      rw [(marker_eq_iff T ctx.mode).2, he]
      simp
    rw [this, List.nil_append]
  · intro hlong
    rw [sym_decorate_buf_eq, if_neg (by omega)]

/-- Witness for C11: the global `vm_a` with the label prefix of the sample target, in mode
`machasm` on a 64-bit target. -/
theorem sym_decorate_plain_witness :
    '@' ∉ "lj_".toList ++ "vm_a".toList ∧
    (marker sampleTarget machasmCtx.mode).length + ("lj_".toList ++ "vm_a".toList).length
      < NAME_SIZE ∧
    sym_decorate_buf sampleTarget machasmCtx "lj_".toList "vm_a".toList
      = some "_lj_vm_a".toList :=
  ⟨by decide, by decide,
    (((sym_decorate_plain sampleTarget machasmCtx "lj_".toList "vm_a".toList (by decide)).1
      (by decide)).1).trans (by decide)⟩

/-- C12, refuted as stated: in mode `elfasm` on a 64-bit target the raw name made of 253
letters and the suffix `@16` has 256 characters, so `sprintf` writes 257 bytes into
`name[256]` before the suffix is cut off, and `sym_decorate` does not return the stripped
name. -/
theorem strip_overrun_counterexample :
    ([] : List Char) ++ (List.replicate 300 'a' ++ "@16".toList)
      = List.replicate 300 'a' ++ '@' :: "16".toList ∧
    sym_decorate_buf sampleTarget sampleCtx [] (List.replicate 300 'a' ++ "@16".toList)
      = none ∧
    sym_decorate_buf sampleTarget sampleCtx [] (List.replicate 300 'a' ++ "@16".toList)
      ≠ some (marker sampleTarget sampleCtx.mode ++ List.replicate 300 'a') := by
  have hnone : sym_decorate_buf sampleTarget sampleCtx []
      (List.replicate 300 'a' ++ "@16".toList) = none := by
    rw [sym_decorate_buf_eq, if_neg]
    rw [List.nil_append, List.length_append, List.length_replicate]
    have h3 : ("@16".toList).length = 3 := rfl
    rw [h3]
    unfold NAME_SIZE
    omega
  exact ⟨rfl, hnone, by rw [hnone]; exact (Option.some_ne_none _).symm⟩

/-- C12, amended: for a raw name `pfx ++ suffix` that ends in `@` and digits and fits the
buffer, the marker and the raw name being at most `255` characters, in every configuration but
a 32-bit x86 target in mode `coffasm` or `peobj`, `sym_decorate` returns a name without `@`:
the marker followed by the raw name cut at its first `@`, which is the decorated form of the
cut name, and is the marker followed by the name without its suffix when the part before the
suffix has no `@` of its own. A longer name overruns the buffer. -/
theorem sym_decorate_strip (T : Target) (ctx : BuildCtx) (pfx suffix base digits : List Char)
    (hraw : pfx ++ suffix = base ++ '@' :: digits)
    (_hne : digits ≠ []) (_hdig : ∀ c, c ∈ digits → c.isDigit = true)
    (hcfg : ¬ (T.RAVI_TARGET_X86ORX64 = true ∧ T.RAVI_64 = false ∧
      (ctx.mode = BuildMode.coffasm ∨ ctx.mode = BuildMode.peobj))) :
    ((marker T ctx.mode).length + (pfx ++ suffix).length < NAME_SIZE →
      sym_decorate_buf T ctx pfx suffix
        = some (marker T ctx.mode ++ (pfx ++ suffix).takeWhile (fun c => c ≠ '@')) ∧
      '@' ∉ marker T ctx.mode ++ (pfx ++ suffix).takeWhile (fun c => c ≠ '@') ∧
      sym_decorate_buf T ctx pfx suffix
        = sym_decorate_buf T ctx [] ((pfx ++ suffix).takeWhile (fun c => c ≠ '@')) ∧
      ('@' ∉ base → sym_decorate_buf T ctx pfx suffix = some (marker T ctx.mode ++ base))) ∧
    (NAME_SIZE ≤ (marker T ctx.mode).length + (pfx ++ suffix).length →
      sym_decorate_buf T ctx pfx suffix = none) := by
  have hat : '@' ∈ pfx ++ suffix := by
    rw [hraw]
    simp
  have hnot : '@' ∉ (pfx ++ suffix).takeWhile (fun c => decide (c ≠ '@')) := by
    intro hmem
    have := List.mem_takeWhile_imp hmem
    simp at this
  have hcutlen : ((pfx ++ suffix).takeWhile (fun c => decide (c ≠ '@'))).length
      ≤ (pfx ++ suffix).length :=
    (List.takeWhile_sublist _).length_le
  constructor
  · intro hfit
    have h1 : sym_decorate_buf T ctx pfx suffix
        = some (marker T ctx.mode ++ (pfx ++ suffix).takeWhile (fun c => c ≠ '@')) := by
      rw [sym_decorate_buf_eq, if_pos hfit, sym_decorate_eq, if_pos hat, if_neg hcfg]
    refine ⟨h1, ?_, ?_, ?_⟩
    · rw [List.mem_append]
      rintro (h | h)
      · exact not_at_mem_marker T ctx.mode h
      · exact hnot h
    · rw [h1, sym_decorate_buf_eq, List.nil_append, if_pos (by omega), sym_decorate_eq,
        List.nil_append, if_neg hnot]
    · intro hbase
      rw [h1, hraw]
      congr 2
      rw [List.takeWhile_append_of_pos]
      · simp
      · intro a ha
        have : a ≠ '@' := fun h => hbase (h ▸ ha)
        simpa using this
  · intro hlong
    rw [sym_decorate_buf_eq, if_neg (by omega)]

/-- Witness for C12: `RtlUnwind@16` in mode `elfasm` on a 64-bit target. -/
theorem sym_decorate_strip_witness :
    ([] : List Char) ++ "RtlUnwind@16".toList = "RtlUnwind".toList ++ '@' :: "16".toList ∧
    (marker sampleTarget sampleCtx.mode).length
      + (([] : List Char) ++ "RtlUnwind@16".toList).length < NAME_SIZE ∧
    sym_decorate_buf sampleTarget sampleCtx [] "RtlUnwind@16".toList
      = some "RtlUnwind".toList :=
  ⟨by decide, by decide,
    ((((sym_decorate_strip sampleTarget sampleCtx [] "RtlUnwind@16".toList "RtlUnwind".toList
      "16".toList (by decide) (by decide) (by decide) (by decide)).1 (by decide)).2.2.2
        (by decide))).trans (by decide)⟩

/-- C13, refuted as stated: on a 32-bit x86 target in mode `coffasm` the name `foo@4`, which is
not the legacy name, keeps its suffix and gets the leading `@`; it is not stripped to `_foo`.
The legacy name keeps the marker `_` it had. On a 32-bit target that is not x86 the suffix of
the legacy name is stripped. -/
theorem suffix_kept_counterexample :
    sym_decorate_buf x86Target coffasmCtx [] "foo@4".toList = some "@foo@4".toList ∧
    sym_decorate_buf x86Target coffasmCtx [] "foo@4".toList ≠ some "_foo".toList ∧
    sym_decorate_buf x86Target coffasmCtx [] "RtlUnwind@16".toList
      = some "_RtlUnwind@16".toList ∧
    sym_decorate_buf arm32Target coffasmCtx [] "RtlUnwind@16".toList
      = some "_RtlUnwind".toList := by
  decide

/-- C13, amended: on a 32-bit x86 target in mode `coffasm` or `peobj`, `sym_decorate` strips
nothing from a raw name that contains `@` and fits the buffer, the raw name being at most
`254` characters: the result is the raw name with one character in front, `_` when the raw
name starts with `R` (as the legacy name `RtlUnwind@16` does) and `@` otherwise. On a 32-bit
target that is not x86 the two modes strip the suffix like the other formats. A longer name
overruns the buffer. -/
theorem sym_decorate_keep (T : Target) (ctx : BuildCtx) (pfx suffix : List Char)
    (h32 : T.RAVI_64 = false)
    (hmode : ctx.mode = BuildMode.coffasm ∨ ctx.mode = BuildMode.peobj)
    (hat : '@' ∈ pfx ++ suffix) :
    ((pfx ++ suffix).length + 1 < NAME_SIZE →
      (T.RAVI_TARGET_X86ORX64 = true →
        sym_decorate_buf T ctx pfx suffix
          = some ((if (pfx ++ suffix).head? = some 'R' then '_' else '@')
              :: (pfx ++ suffix))) ∧
      (T.RAVI_TARGET_X86ORX64 = false →
        sym_decorate_buf T ctx pfx suffix
          = some ('_' :: (pfx ++ suffix).takeWhile (fun c => c ≠ '@')))) ∧
    (NAME_SIZE ≤ (pfx ++ suffix).length + 1 → sym_decorate_buf T ctx pfx suffix = none) := by
  have hmark : marker T ctx.mode = ['_'] := by
    rw [(marker_eq_iff T ctx.mode).1]
    right
    refine ⟨h32, ?_⟩
    rcases hmode with h | h <;> rw [h] <;> decide
  have hlen : (marker T ctx.mode).length = 1 := by rw [hmark]; rfl
  refine ⟨?_, ?_⟩
  · intro hfit
    constructor
    · intro hx
      rw [sym_decorate_buf_eq, if_pos (by omega), sym_decorate_eq, if_pos hat,
        if_pos ⟨hx, h32, hmode⟩, hmark]
      rfl
    · intro hx
      rw [sym_decorate_buf_eq, if_pos (by omega), sym_decorate_eq, if_pos hat,
        if_neg (by rw [hx]; simp), hmark]
      rfl
  · intro hlong
    rw [sym_decorate_buf_eq, if_neg (by omega)]

/-- Witness for C13: the legacy name in mode `coffasm` on a 32-bit x86 target. -/
theorem sym_decorate_keep_witness :
    x86Target.RAVI_64 = false ∧ '@' ∈ ([] : List Char) ++ "RtlUnwind@16".toList ∧
    (([] : List Char) ++ "RtlUnwind@16".toList).length + 1 < NAME_SIZE ∧
    sym_decorate_buf x86Target coffasmCtx [] "RtlUnwind@16".toList
      = some "_RtlUnwind@16".toList :=
  ⟨rfl, by decide, by decide,
    ((((sym_decorate_keep x86Target coffasmCtx [] "RtlUnwind@16".toList rfl (Or.inl rfl)
      (by decide)).1 (by decide)).1 rfl)).trans (by decide)⟩

/-! ## Results on `emit_bcdef` -/

theorem intercalate_cons {α : Type} (sep x : List α) (xs : List (List α)) :
    List.intercalate sep (x :: xs) = x ++ (xs.map (fun y => sep ++ y)).flatten := by
  unfold List.intercalate
  induction xs generalizing x with
  | nil => simp
  | cons y ys ih =>
    rw [List.intersperse_cons_cons, List.flatten_cons, List.flatten_cons, ih y]
    simp

theorem emit_bcdef_loop_pos (ctx : BuildCtx) : ∀ (is : List Nat), (∀ i, i ∈ is → i ≠ 0) →
    emit_bcdef_loop ctx is
      = (is.map (fun i => ",\n".toList ++ fmt_d (ctx.bc_ofs i))).flatten := by
  intro is
  induction is with
  | nil => intro _; rfl
  | cons i is ih =>
    intro h
    rw [emit_bcdef_loop, if_pos (h i (List.mem_cons_self _ _)),
      ih (fun j hj => h j (List.mem_cons_of_mem _ hj)), List.map_cons, List.flatten_cons]

theorem emit_bcdef_loop_range (ctx : BuildCtx) (n : Nat) :
    emit_bcdef_loop ctx (List.range n)
      = List.intercalate ",\n".toList ((cells ctx.bc_ofs n).map fmt_d) := by
  cases n with
  | zero => rfl
  | succ n =>
    unfold cells
    rw [List.range_succ_eq_map, emit_bcdef_loop, if_neg (by simp),
      emit_bcdef_loop_pos ctx _ (by simp), List.map_cons, List.map_cons, intercalate_cons]
    simp [List.map_map, Function.comp_def]

/-- C14: `emit_bcdef` writes the header comment, then the declaration line, then the `npc`
bytecode offsets in index order as decimal integers, joined by a comma and a newline, with
nothing before the first and nothing after the last; for the offsets `0, 8, 16, 30` the body
is `0,\n8,\n16,\n30`. -/
theorem emit_bcdef_text :
    (∀ ctx : BuildCtx,
      emit_bcdef ctx
        = "/* This is a generated file. DO NOT EDIT! */\n\n".toList
          ++ "RAVI_DATADEF const uint16_t lj_bc_ofs[] = \x7b\n".toList
          ++ List.intercalate ",\n".toList ((cells ctx.bc_ofs ctx.npc.toNat).map fmt_d)) ∧
    cells bcdefCtx.bc_ofs bcdefCtx.npc.toNat = [0, 8, 16, 30] ∧
    [(0 : Int), 8, 16, 30].map fmt_d = ["0".toList, "8".toList, "16".toList, "30".toList] ∧
    emit_bcdef bcdefCtx
      = "/* This is a generated file. DO NOT EDIT! */\n\n".toList
        ++ "RAVI_DATADEF const uint16_t lj_bc_ofs[] = \x7b\n".toList
        ++ "0,\n8,\n16,\n30".toList := by
  refine ⟨?_, by decide, by decide, by decide⟩
  intro ctx
  unfold emit_bcdef
  rw [emit_bcdef_loop_range]
  rfl

/-! ## Lemmas on the stages of `build_code` -/

theorem collect_relocs_total (T : Target) : ∀ (qs : List ExternReq) (ctx : BuildCtx),
    ctx.nreloc + qs.length ≤ T.BUILD_MAX_RELOC →
    ∃ ctx', collect_relocs T ctx qs = Except.ok ctx' := by
  intro qs
  induction qs with
  | nil => intro ctx _; exact ⟨ctx, rfl⟩
  | cons q qs ih =>
    intro ctx hlen
    rw [List.length_cons] at hlen
    have hok := collect_reloc_ok T ctx q.addr q.idx q.type (by omega)
    obtain ⟨_, _, hn, _, _⟩ := collect_reloc_returns T ctx _ q.addr q.idx q.type 0 hok
    obtain ⟨ctx', hrun⟩ := ih _ (by rw [hn]; omega)
    exact ⟨ctx', by rw [collect_relocs, hok]; exact hrun⟩

/-- The body of `build_code`, stage by stage. -/
theorem build_code_unfold (T : Target) (B : Backend) (c : BuildCtx) :
    build_code T B c =
      if B.link_status ≠ 0 then Except.ok (B.link_status, { build_init T c with npc := B.npc })
      else
        match collect_relocs T (encodeStart T B c) B.externs with
        | Except.error e => Except.error e
        | Except.ok ctx3 =>
          if B.encode_status ≠ 0 then Except.ok (B.encode_status, { ctx3 with glob := B.glob })
          else
            match collect_pclabels B (List.range ctx3.npc.toNat) (symbolsStart T B ctx3) with
            | (some status, ctx4) => Except.ok (status, ctx4)
            | (none, ctx4) =>
              match collect_globals T (List.range ctx4.nglob) ctx4 with
              | Except.error e => Except.error e
              | Except.ok ctx5 => Except.ok (0, closeRange T ctx5) := rfl

/-- The entry of `names` at index `i` is the first one equal to `mode`. -/
theorem parsemode_loop_spec (mode : List Char) : ∀ (names : List (List Char)) (k : Nat),
    (∀ r, parsemode_loop mode names k = some r →
      ∃ i, r = k + i ∧ i < names.length ∧ names.getD i [] = mode ∧
        ∀ j, j < i → names.getD j [] ≠ mode) ∧
    (parsemode_loop mode names k = none → mode ∉ names) := by
  intro names
  induction names with
  | nil =>
    intro k
    refine ⟨fun r h => ?_, fun _ => List.not_mem_nil _⟩
    simp [parsemode_loop] at h
  | cons n ns ih =>
    intro k
    by_cases hn : mode = n
    · subst hn
      constructor
      · intro r h
        rw [parsemode_loop, if_pos rfl] at h
        simp only [Option.some.injEq] at h
        refine ⟨0, by omega, by simp, by simp, ?_⟩
        intro j hj
        omega
      · intro h
        rw [parsemode_loop, if_pos rfl] at h
        simp at h
    · obtain ⟨ih1, ih2⟩ := ih (k + 1)
      constructor
      · intro r h
        rw [parsemode_loop, if_neg hn] at h
        obtain ⟨i, hr, hlt, hget, hfirst⟩ := ih1 r h
        refine ⟨i + 1, by omega, by simp; omega, by simpa using hget, ?_⟩
        intro j hj
        cases j with
        | zero => simpa using Ne.symm hn
        | succ j =>
          have := hfirst j (by omega)
          simpa using this
      · intro h
        rw [parsemode_loop, if_neg hn] at h
        intro hmem
        rcases List.mem_cons.mp hmem with h1 | h1
        · exact hn h1
        · exact ih2 h h1

theorem parseargs_ok_error (F : Frontend) (mode : Option Nat) (out : List Char)
    (args : List (List Char)) (e : Exit) (h : parseargs_ok F mode out args = Except.error e) :
    e = usage F := by
  cases mode with
  | none => simp only [parseargs_ok, Except.error.injEq] at h; exact h.symm
  | some m => simp [parseargs_ok] at h

theorem parsemode_error (F : Frontend) (mode : List Char) (e : Exit)
    (h : parsemode F mode = Except.error e) : e = usage F := by
  unfold parsemode at h
  split at h
  · simp at h
  · simp only [Except.error.injEq] at h; exact h.symm

theorem parseargs_loop_error (F : Frontend) : ∀ (n : Nat) (args : List (List Char))
    (mode : Option Nat) (out : List Char) (e : Exit), args.length ≤ n →
    parseargs_loop F args mode out = Except.error e → e = usage F := by
  intro n
  induction n with
  | zero =>
    intro args mode out e hlen h
    have : args = [] := List.length_eq_zero.mp (by omega)
    subst this
    rw [parseargs_loop] at h
    exact parseargs_ok_error F _ _ _ e h
  | succ n ih =>
    intro args mode out e hlen h
    match args with
    | [] =>
      rw [parseargs_loop] at h
      exact parseargs_ok_error F _ _ _ e h
    | [] :: rest =>
      rw [parseargs_loop] at h
      exact parseargs_ok_error F _ _ _ e h
    | (a0 :: a1) :: rest =>
      rw [parseargs_loop.eq_def] at h
      simp only at h
      split at h
      · exact parseargs_ok_error F _ _ _ e h
      · split at h
        · exact parseargs_ok_error F _ _ _ e h
        · split at h
          · simp only [Except.error.injEq] at h; exact h.symm
          · exact parseargs_ok_error F _ _ _ e h
        · split at h
          · simp only [Except.error.injEq] at h; exact h.symm
          · split at h
            · rename_i e1 hm
              simp only [Except.error.injEq] at h
              subst h
              exact parsemode_error F _ _ hm
            · rename_i rest' _ _ _
              exact ih _ _ _ e (by simp only [List.length_cons] at hlen; omega) h
        · split at h
          · simp only [Except.error.injEq] at h; exact h.symm
          · exact ih _ _ _ e (by simp only [List.length_cons] at hlen; omega) h
        · simp only [Except.error.injEq] at h; exact h.symm

theorem collect_globals_error (T : Target) : ∀ (is : List Nat) (ctx : BuildCtx) (e : Fatal),
    collect_globals T is ctx = Except.error e → e.status = 2 := by
  intro is
  induction is with
  | nil => intro ctx e h; simp [collect_globals] at h
  | cons i is ih =>
    intro ctx e h
    rw [collect_globals] at h
    split at h
    · simp only [Except.error.injEq] at h
      rw [← h]
    · split at h
      · exact ih _ e h
      · exact ih _ e h

/-- The only exits inside `build_code` have status `1` (relocation array full) and status `2`
(undefined global). -/
theorem build_code_error_status (T : Target) (B : Backend) (c : BuildCtx) (e : Fatal)
    (h : build_code T B c = Except.error e) : e.status = 1 ∨ e.status = 2 := by
  rw [build_code_unfold] at h
  split at h
  · simp at h
  · split at h
    · rename_i e1 hr
      simp only [Except.error.injEq] at h
      subst h
      exact Or.inl (collect_relocs_error T _ _ e1 hr).1
    · split at h
      · simp at h
      · split at h
        · simp at h
        · split at h
          · rename_i e1 hg
            simp only [Except.error.injEq] at h
            subst h
            exact Or.inr (collect_globals_error T _ _ e1 hg)
          · simp at h

theorem build_code_link_failure (T : Target) (B : Backend) (c : BuildCtx)
    (hl : B.link_status ≠ 0) :
    ∃ ctx, build_code T B c = Except.ok (B.link_status, ctx) ∧
      ctx.nsym = c.nsym ∧ ctx.sym = c.sym := by
  refine ⟨{ build_init T c with npc := B.npc }, ?_, rfl, rfl⟩
  rw [build_code_unfold, if_pos hl]

theorem build_code_encode_failure (T : Target) (B : Backend) (c : BuildCtx)
    (hl : B.link_status = 0) (hr : B.externs.length ≤ T.BUILD_MAX_RELOC)
    (he : B.encode_status ≠ 0) :
    ∃ ctx, build_code T B c = Except.ok (B.encode_status, ctx) ∧
      ctx.nsym = c.nsym ∧ ctx.sym = c.sym := by
  obtain ⟨ctx3, hrel⟩ := collect_relocs_total T B.externs (encodeStart T B c)
    (by show 0 + B.externs.length ≤ T.BUILD_MAX_RELOC; omega)
  obtain ⟨m, rs, n, r, k, h3⟩ := collect_relocs_frame T _ _ _ hrel
  refine ⟨{ ctx3 with glob := B.glob }, ?_, by rw [h3]; rfl, by rw [h3]; rfl⟩
  rw [build_code_unfold, if_neg (by simp [hl]), hrel]
  simp only [he, ne_eq, not_false_eq_true, if_true]

/-- When `build_code` returns a status other than `0` for every context, `main` ends with
status `1` before the output is selected. -/
theorem main_of_build_status (T : Target) (F : Frontend) (H : Host) (B : Backend)
    (c0 : BuildCtx) (args : List (List Char))
    (hb : ∀ c, ∃ st ctx, build_code T B c = Except.ok (st, ctx) ∧ st ≠ 0) :
    (main T F H B c0 args).status = 1 ∧ (main T F H B c0 args).opened = false ∧
    (main T F H B c0 args).emitted = false ∧ (main T F H B c0 args).output = [] := by
  have hmain : ∃ msg, main T F H B c0 args = ⟨1, msg, false, false, []⟩ := by
    unfold main
    by_cases hptr : H.sizeof_ptr
        ≠ 4 * (if F.RAVI_32 then 1 else 0) + 8 * (if T.RAVI_64 then 1 else 0)
    · rw [if_pos hptr]
      exact ⟨_, rfl⟩
    · rw [if_neg hptr]
      split
      · rename_i e hp
        have he : e = usage F := parseargs_loop_error F _ _ _ _ e (le_refl _) hp
        subst he
        exact ⟨_, rfl⟩
      · rename_i pa hp
        obtain ⟨st, ctx, hbc, hst⟩ := hb { c0 with mode := modeOfIndex F pa.mode }
        rw [hbc]
        simp only [hst, ne_eq, not_false_eq_true, if_true]
        exact ⟨_, rfl⟩
  obtain ⟨msg, h⟩ := hmain
  rw [h]
  exact ⟨rfl, rfl, rfl, rfl⟩

/-! ## Results on the argument parser and on `main` -/

/-- C17: when `dasm_link` returns a status other than `0`, and when linking succeeds and
`dasm_encode` returns a status other than `0`, `build_code` returns that status and leaves
`nsym` and the symbol table as they were; `main` then ends with status `1` without selecting
the output or starting an emitter. `main` ends with status `0` only when `build_code` has
returned `0`. -/
theorem build_failure_propagates :
    (∀ (T : Target) (B : Backend) (c : BuildCtx), B.link_status ≠ 0 →
      ∃ ctx, build_code T B c = Except.ok (B.link_status, ctx) ∧
        ctx.nsym = c.nsym ∧ ctx.sym = c.sym) ∧
    (∀ (T : Target) (B : Backend) (c : BuildCtx), B.link_status = 0 →
      B.externs.length ≤ T.BUILD_MAX_RELOC → B.encode_status ≠ 0 →
      ∃ ctx, build_code T B c = Except.ok (B.encode_status, ctx) ∧
        ctx.nsym = c.nsym ∧ ctx.sym = c.sym) ∧
    (∀ (T : Target) (F : Frontend) (H : Host) (B : Backend) (c0 : BuildCtx)
      (args : List (List Char)),
      (B.link_status ≠ 0 ∨
        (B.link_status = 0 ∧ B.externs.length ≤ T.BUILD_MAX_RELOC ∧ B.encode_status ≠ 0)) →
      (main T F H B c0 args).status = 1 ∧ (main T F H B c0 args).opened = false ∧
      (main T F H B c0 args).emitted = false ∧ (main T F H B c0 args).output = []) ∧
    (∀ (T : Target) (F : Frontend) (H : Host) (B : Backend) (c0 : BuildCtx)
      (args : List (List Char)),
      (main T F H B c0 args).status = 0 →
      ∃ pa ctx, parseargs F args = Except.ok pa ∧
        build_code T B { c0 with mode := modeOfIndex F pa.mode } = Except.ok (0, ctx)) := by
  refine ⟨build_code_link_failure, build_code_encode_failure, ?_, ?_⟩
  · intro T F H B c0 args hfail
    apply main_of_build_status
    intro c
    rcases hfail with hl | ⟨hl, hr, he⟩
    · obtain ⟨ctx, h, _⟩ := build_code_link_failure T B c hl
      exact ⟨_, ctx, h, hl⟩
    · obtain ⟨ctx, h, _⟩ := build_code_encode_failure T B c hl hr he
      exact ⟨_, ctx, h, he⟩
  · intro T F H B c0 args h0
    unfold main at h0
    by_cases hptr : H.sizeof_ptr
        ≠ 4 * (if F.RAVI_32 then 1 else 0) + 8 * (if T.RAVI_64 then 1 else 0)
    · rw [if_pos hptr] at h0
      simp at h0
    · rw [if_neg hptr] at h0
      split at h0
      · rename_i e hp
        have he : e = usage F := parseargs_loop_error F _ _ _ _ e (le_refl _) hp
        subst he
        exact absurd (show (1 : Nat) = 0 from h0) (by decide)
      · rename_i pa hp
        split at h0
        · rename_i e hb
          rcases build_code_error_status T B _ e hb with h1 | h1 <;> simp [h1] at h0
        · rename_i st ctx hb
          split at h0
          · simp at h0
          · rename_i hst
            have hst0 : st = 0 := by simpa using hst
            subst hst0
            exact ⟨pa, ctx, hp, hb⟩

/-- Witness for C17: the link step fails with status `3`. -/
theorem build_failure_propagates_witness :
    linkFailBackend.link_status ≠ 0 ∧
    main sampleTarget sampleFrontend sampleHost linkFailBackend sampleCtx sampleArgs
      = ⟨1, "Error: DASM error 00000003\n".toList, false, false, []⟩ ∧
    (main sampleTarget sampleFrontend sampleHost linkFailBackend sampleCtx sampleArgs).status
      = 1 :=
  ⟨by decide, by decide,
    (build_failure_propagates.2.2.1 sampleTarget sampleFrontend sampleHost linkFailBackend
      sampleCtx sampleArgs (Or.inl (by decide))).1⟩

/-- C18: `parsemode` returns the index of the first entry of `modenames` equal to `mode` when
there is one, and otherwise prints the usage text and exits with status `1`; a value it
returns is always below `BUILD__MAX`. -/
theorem parsemode_spec (F : Frontend) (mode : List Char) :
    (∀ i, i < BUILD__MAX F → F.modenames.getD i [] = mode →
      (∀ j, j < i → F.modenames.getD j [] ≠ mode) → parsemode F mode = Except.ok i) ∧
    (mode ∈ F.modenames → ∃ i, parsemode F mode = Except.ok i) ∧
    (mode ∉ F.modenames →
      parsemode F mode = Except.error (usage F) ∧ (usage F).status = 1) ∧
    (∀ i, parsemode F mode = Except.ok i →
      i < BUILD__MAX F ∧ F.modenames.getD i [] = mode ∧
      ∀ j, j < i → F.modenames.getD j [] ≠ mode) := by
  obtain ⟨h1, h2⟩ := parsemode_loop_spec mode F.modenames 0
  have hret : ∀ i, parsemode F mode = Except.ok i →
      i < BUILD__MAX F ∧ F.modenames.getD i [] = mode ∧
      ∀ j, j < i → F.modenames.getD j [] ≠ mode := by
    intro i hi
    unfold parsemode at hi
    split at hi
    · rename_i r hr
      simp only [Except.ok.injEq] at hi
      subst hi
      obtain ⟨i, hri, hlt, hget, hfirst⟩ := h1 r hr
      rw [Nat.zero_add] at hri
      subst hri
      exact ⟨hlt, hget, hfirst⟩
    · simp at hi
  have hmem : mode ∈ F.modenames → ∃ i, parsemode F mode = Except.ok i := by
    intro hin
    unfold parsemode
    cases hr : parsemode_loop mode F.modenames 0 with
    | none => exact absurd hin (h2 hr)
    | some r => exact ⟨r, rfl⟩
  refine ⟨?_, hmem, ?_, hret⟩
  · intro i hlt hget hfirst
    have hin : mode ∈ F.modenames := by
      rw [← hget, List.getD_eq_getElem?_getD, List.getElem?_eq_getElem hlt, Option.getD_some]
      exact List.getElem_mem _
    obtain ⟨i', hi'⟩ := hmem hin
    obtain ⟨_, hget', hfirst'⟩ := hret i' hi'
    have : i' = i := by
      rcases Nat.lt_trichotomy i' i with h | h | h
      · exact absurd hget' (hfirst i' h)
      · exact h
      · exact absurd hget (hfirst' i h)
    rw [← this]
    exact hi'
  · intro hnot
    refine ⟨?_, rfl⟩
    unfold parsemode
    cases hr : parsemode_loop mode F.modenames 0 with
    | none => rfl
    | some r =>
      obtain ⟨i, _, hlt, hget, _⟩ := h1 r hr
      exfalso
      apply hnot
      rw [← hget, List.getD_eq_getElem?_getD, List.getElem?_eq_getElem hlt, Option.getD_some]
      exact List.getElem_mem _

/-- Witness for C18: the mode `raw` is entry `4` of the sample table. -/
theorem parsemode_spec_witness :
    4 < BUILD__MAX sampleFrontend ∧ sampleFrontend.modenames.getD 4 [] = "raw".toList ∧
    parsemode sampleFrontend "raw".toList = Except.ok 4 :=
  ⟨by decide, by decide,
    (parsemode_spec sampleFrontend "raw".toList).1 4 (by decide) (by decide)
      (by
        intro j hj
        interval_cases j <;> decide)⟩

/-! ## Lemmas on sequences of insertions -/

theorem length_le_of_nodup_of_lt (l : List Nat) (n : Nat) (hnd : l.Nodup)
    (hlt : ∀ i, i ∈ l → i < n) : l.length ≤ n := by
  have hsub : l.toFinset ⊆ Finset.range n := by
    intro i hi
    rw [Finset.mem_range]
    exact hlt i (List.mem_toFinset.mp hi)
  have hcard := Finset.card_le_card hsub
  rw [List.toFinset_card_of_nodup hnd, Finset.card_range] at hcard
  exact hcard

/-- Whatever the number of requests, the interner stays in agreement with a list of distinct
indices below `NRELOCSYM`, both when the run returns and when it ends the process. -/
theorem Interned.run_any (T : Target) : ∀ (qs : List ExternReq) (ctx : BuildCtx)
    (seen : List Nat), Interned T ctx seen → (∀ i, i ∈ seen → i < NRELOCSYM T) →
    (∀ q, q ∈ qs → q.idx < NRELOCSYM T) →
    (∀ ctx', collect_relocs T ctx qs = Except.ok ctx' →
      ∃ seen', Interned T ctx' seen' ∧ ∀ i, i ∈ seen' → i < NRELOCSYM T) ∧
    (∀ e, collect_relocs T ctx qs = Except.error e →
      ∃ seen', Interned T e.ctx seen' ∧ ∀ i, i ∈ seen' → i < NRELOCSYM T) := by
  intro qs
  induction qs with
  | nil =>
    intro ctx seen hI hb _
    constructor
    · intro ctx' h
      simp only [collect_relocs, Except.ok.injEq] at h
      subst h
      exact ⟨seen, hI, hb⟩
    · intro e h
      simp [collect_relocs] at h
  | cons q qs ih =>
    intro ctx seen hI hb hidx
    have hq := hidx q (List.mem_cons_self _ _)
    have hrest : ∀ q', q' ∈ qs → q'.idx < NRELOCSYM T :=
      fun q' hq' => hidx q' (List.mem_cons_of_mem _ hq')
    cases hc : collect_reloc T ctx q.addr q.idx q.type with
    | error e1 =>
      obtain ⟨_, he1⟩ := collect_reloc_error T ctx q.addr q.idx q.type e1 hc
      constructor
      · intro ctx' h
        rw [collect_relocs, hc] at h
        simp at h
      · intro e h
        rw [collect_relocs, hc] at h
        simp only [Except.error.injEq] at h
        subst h
        subst he1
        exact ⟨seen, hI, hb⟩
    | ok r =>
      obtain ⟨ctx1, v⟩ := r
      obtain ⟨hI1, _, _⟩ := Interned.step T ctx ctx1 seen q.addr q.idx q.type v hI hq hc
      have hb1 : ∀ i, i ∈ (if q.idx ∈ seen then seen else seen ++ [q.idx]) →
          i < NRELOCSYM T := by
        intro i hi
        by_cases hmem : q.idx ∈ seen
        · rw [if_pos hmem] at hi
          exact hb i hi
        · rw [if_neg hmem] at hi
          rcases List.mem_append.mp hi with h | h
          · exact hb i h
          · rw [List.mem_singleton.mp h]
            exact hq
      obtain ⟨ih1, ih2⟩ := ih ctx1 _ hI1 hb1 hrest
      constructor
      · intro ctx' h
        rw [collect_relocs, hc] at h
        exact ih1 ctx' h
      · intro e h
        rw [collect_relocs, hc] at h
        exact ih2 e h

theorem Interned.bounds (T : Target) (ctx : BuildCtx) (seen : List Nat)
    (hI : Interned T ctx seen) (hb : ∀ i, i ∈ seen → i < NRELOCSYM T) :
    ctx.nrelocsym ≤ NRELOCSYM T ∧
    ∀ idx, idx < NRELOCSYM T → ctx.relocmap idx < 0 → ctx.nrelocsym < NRELOCSYM T := by
  obtain ⟨hn, hnd, _, hmap, _⟩ := hI
  refine ⟨by rw [hn]; exact length_le_of_nodup_of_lt seen _ hnd hb, ?_⟩
  intro idx hidx hneg
  have hnot : idx ∉ seen := by
    intro hmem
    have := hmap idx hmem
    omega
  have hnd2 : (seen ++ [idx]).Nodup := by
    rw [List.nodup_append]
    refine ⟨hnd, List.nodup_singleton _, ?_⟩
    intro a ha hb2
    rw [List.mem_singleton] at hb2
    subst hb2
    exact hnot ha
  have hlen := length_le_of_nodup_of_lt (seen ++ [idx]) (NRELOCSYM T) hnd2 (by
    intro i hi
    rcases List.mem_append.mp hi with h | h
    · exact hb i h
    · rw [List.mem_singleton.mp h]
      exact hidx)
  rw [List.length_append, List.length_singleton] at hlen
  omega

/-- C20, refuted as stated: `relocmap` has `NRELOCSYM + 1` slots and the initialisation of
`build_code` resets the first `NRELOCSYM`; the last slot keeps the `0` of its static
initialisation. -/
theorem relocmap_reset_counterexample :
    NRELOCSYM sampleTarget < relocmapSlots sampleTarget ∧
    sampleCtx.relocmap (NRELOCSYM sampleTarget) = 0 ∧
    (build_init sampleTarget sampleCtx).relocmap (NRELOCSYM sampleTarget) = 0 ∧
    (build_init sampleTarget sampleCtx).relocmap (NRELOCSYM sampleTarget) ≠ -1 := by
  decide

/-- C20, amended: after the initialisation of `build_code` every slot of `relocmap` below
`NRELOCSYM` is `-1` and `nrelocsym` is `0`; the extra slot at index `NRELOCSYM` is left as it
was. From such a state, for every sequence of `collect_reloc` calls with indices below
`NRELOCSYM`, `nrelocsym` stays at most `NRELOCSYM`, whether the sequence returns or ends the
process, and whenever a further call would write a relocation symbol (its index is still
unseen) `nrelocsym` is below `NRELOCSYM`, so the write is inside the `NRELOCSYM` slots. -/
theorem interner_bounds :
    (∀ (T : Target) (c : BuildCtx),
      (∀ i, i < NRELOCSYM T → (build_init T c).relocmap i = -1) ∧
      (build_init T c).relocmap (NRELOCSYM T) = c.relocmap (NRELOCSYM T) ∧
      (build_init T c).nrelocsym = 0) ∧
    (∀ (T : Target) (ctx : BuildCtx) (qs : List ExternReq),
      (∀ i, i < NRELOCSYM T → ctx.relocmap i = -1) → ctx.nrelocsym = 0 →
      (∀ q, q ∈ qs → q.idx < NRELOCSYM T) →
      (∀ ctx', collect_relocs T ctx qs = Except.ok ctx' →
        ctx'.nrelocsym ≤ NRELOCSYM T ∧
        ∀ idx, idx < NRELOCSYM T → ctx'.relocmap idx < 0 →
          ctx'.nrelocsym < NRELOCSYM T) ∧
      (∀ e, collect_relocs T ctx qs = Except.error e →
        e.ctx.nrelocsym ≤ NRELOCSYM T)) := by
  constructor
  · intro T c
    refine ⟨?_, ?_, rfl⟩
    · intro i hi
      simp [build_init, hi]
    · simp [build_init]
  · intro T ctx qs hmap hn hidx
    have hI : Interned T ctx [] := by
      refine ⟨by simp [hn], List.nodup_nil, by simp [hn, cells], ?_, ?_⟩
      · intro i hi
        simp at hi
      · intro i hi _
        rw [hmap i hi]
        decide
    obtain ⟨h1, h2⟩ := Interned.run_any T qs ctx [] hI (by simp) hidx
    constructor
    · intro ctx' hok
      obtain ⟨seen', hI', hb'⟩ := h1 ctx' hok
      exact Interned.bounds T ctx' seen' hI' hb'
    · intro e herr
      obtain ⟨seen', hI', hb'⟩ := h2 e herr
      exact (Interned.bounds T e.ctx seen' hI' hb').1

/-- Witness for C20: three requests after the initialisation of `build_code`. -/
theorem interner_bounds_witness :
    (∀ i, i < NRELOCSYM sampleTarget → (build_init sampleTarget sampleCtx).relocmap i = -1) ∧
    (resultCtx ((collect_relocs sampleTarget (build_init sampleTarget sampleCtx)
        sampleRequests).map (fun ctx => ((0 : Int), ctx)))).nrelocsym
      ≤ NRELOCSYM sampleTarget :=
  have hmap : ∀ i, i < NRELOCSYM sampleTarget →
      (build_init sampleTarget sampleCtx).relocmap i = -1 :=
    (interner_bounds.1 sampleTarget sampleCtx).1
  ⟨hmap,
    ((interner_bounds.2 sampleTarget (build_init sampleTarget sampleCtx) sampleRequests hmap rfl
      (by
        intro q hq
        simp only [sampleRequests, List.mem_cons, List.mem_singleton, List.not_mem_nil,
          or_false] at hq
        rcases hq with rfl | rfl | rfl <;> decide)).1 _ rfl).1⟩

/-! ## Results on the decoration of names on 32-bit x86 -/

/-- C23, refuted as stated: on a 32-bit x86 target in mode `peobj` the raw name made of 300
letters and the suffix `@4` has 302 characters; with the leading character and the terminating
NUL `sprintf` writes 304 bytes into `name[256]`, and `sym_decorate` does not return a string
of length `1 + 302`. -/
theorem x86_coff_overrun_counterexample :
    '@' ∈ ([] : List Char) ++ (List.replicate 300 'a' ++ "@4".toList) ∧
    (([] : List Char) ++ (List.replicate 300 'a' ++ "@4".toList)).length = 302 ∧
    sym_decorate_buf x86Target peobjCtx [] (List.replicate 300 'a' ++ "@4".toList) = none ∧
    ¬ ∃ r, sym_decorate_buf x86Target peobjCtx [] (List.replicate 300 'a' ++ "@4".toList)
        = some r ∧
      r.length = 1 + (([] : List Char) ++ (List.replicate 300 'a' ++ "@4".toList)).length := by
  have h2 : ("@4".toList).length = 2 := rfl
  have hlen : (([] : List Char) ++ (List.replicate 300 'a' ++ "@4".toList)).length = 302 := by
    rw [List.nil_append, List.length_append, List.length_replicate, h2]
  have hm : (marker x86Target peobjCtx.mode).length = 1 := by decide
  have hnone : sym_decorate_buf x86Target peobjCtx []
      (List.replicate 300 'a' ++ "@4".toList) = none := by
    rw [sym_decorate_buf_eq, if_neg]
    rw [hm, hlen]
    decide
  refine ⟨?_, hlen, hnone, ?_⟩
  · rw [List.nil_append]
    exact List.mem_append_right _ (by decide)
  · rintro ⟨r, hr, _⟩
    rw [hnone] at hr
    exact Option.noConfusion hr

/-- C23, amended: on a 32-bit x86 target in mode `coffasm` or `peobj`, for every raw name
`pfx ++ suffix` that contains `@` and fits the buffer, the raw name being at most `254`
characters, `sym_decorate` returns a string one character longer than the raw name, whose tail
is the raw name unchanged (the `@` suffix is kept) and whose first character is `_` when the
raw name starts with `R` and `@` otherwise. A longer name overruns the buffer. -/
theorem sym_decorate_x86_coff (T : Target) (ctx : BuildCtx) (pfx suffix : List Char)
    (hx : T.RAVI_TARGET_X86ORX64 = true) (h32 : T.RAVI_64 = false)
    (hmode : ctx.mode = BuildMode.coffasm ∨ ctx.mode = BuildMode.peobj)
    (hat : '@' ∈ pfx ++ suffix) :
    ((pfx ++ suffix).length + 1 < NAME_SIZE →
      ∃ r, sym_decorate_buf T ctx pfx suffix = some r ∧
        r.length = 1 + (pfx ++ suffix).length ∧
        r.tail = pfx ++ suffix ∧
        r.head? = some (if (pfx ++ suffix).head? = some 'R' then '_' else '@')) ∧
    (NAME_SIZE ≤ (pfx ++ suffix).length + 1 → sym_decorate_buf T ctx pfx suffix = none) := by
  have hmark : marker T ctx.mode = ['_'] := by
    rw [(marker_eq_iff T ctx.mode).1]
    right
    refine ⟨h32, ?_⟩
    rcases hmode with h | h <;> rw [h] <;> decide
  have hlen : (marker T ctx.mode).length = 1 := by rw [hmark]; rfl
  refine ⟨?_, ?_⟩
  · intro hfit
    refine ⟨(if (pfx ++ suffix).head? = some 'R' then '_' else '@') :: (pfx ++ suffix),
      ?_, ?_, rfl, rfl⟩
    · rw [sym_decorate_buf_eq, if_pos (by omega), sym_decorate_eq, if_pos hat,
        if_pos ⟨hx, h32, hmode⟩, hmark]
      rfl
    · rw [List.length_cons]
      omega
  · intro hlong
    rw [sym_decorate_buf_eq, if_neg (by omega)]

/-- Witness for C23: the name `lj_vm_foo@4` in mode `peobj` on a 32-bit x86 target. -/
theorem sym_decorate_x86_coff_witness :
    x86Target.RAVI_TARGET_X86ORX64 = true ∧ x86Target.RAVI_64 = false ∧
    '@' ∈ "lj_".toList ++ "vm_foo@4".toList ∧
    ("lj_".toList ++ "vm_foo@4".toList).length + 1 < NAME_SIZE ∧
    sym_decorate_buf x86Target peobjCtx "lj_".toList "vm_foo@4".toList
      = some "@lj_vm_foo@4".toList ∧
    (∃ r, sym_decorate_buf x86Target peobjCtx "lj_".toList "vm_foo@4".toList = some r ∧
      r.length = 1 + ("lj_".toList ++ "vm_foo@4".toList).length ∧
      r.tail = "lj_".toList ++ "vm_foo@4".toList ∧
      r.head? = some (if ("lj_".toList ++ "vm_foo@4".toList).head? = some 'R' then '_'
        else '@')) :=
  ⟨rfl, rfl, by decide, by decide, by decide,
    (sym_decorate_x86_coff x86Target peobjCtx "lj_".toList "vm_foo@4".toList rfl rfl
      (Or.inr rfl) (by decide)).1 (by decide)⟩

/-! ## Results on the loop over the PC labels -/

/-- The cells the loop of `sym_insert` writes are those from the index it stops at up to the
index it starts at. -/
theorem sym_insert_writes_mem (ofs : Int) : ∀ (n : Nat) (sym : Nat → BuildSym) (j : Nat),
    j ∈ sym_insert_writes sym ofs n ↔ (sym_insert_loop sym ofs n).2 ≤ j ∧ j ≤ n := by
  intro n
  induction n with
  | zero =>
    intro sym j
    simp [sym_insert_writes, sym_insert_loop]
  | succ n ih =>
    intro sym j
    rw [sym_insert_writes, sym_insert_loop]
    by_cases h : (sym n).ofs ≤ ofs
    · rw [if_pos h, if_pos h]
      simp only [List.mem_singleton]
      omega
    · rw [if_neg h, if_neg h, List.mem_cons, ih]
      have hle := (sym_insert_loop_spec ofs n (store sym (n + 1) (sym n))).1
      omega

/-- A call of `sym_insert` changes no cell outside the ones listed as written. -/
theorem sym_insert_writes_frame (T : Target) (ctx : BuildCtx) (ofs : Int)
    (pfx suffix : List Char) (j : Nat) (hj : j ∉ (sym_insert_call ctx ofs).writes) :
    (sym_insert T ctx ofs pfx suffix).sym j = ctx.sym j := by
  have hmem := sym_insert_writes_mem ofs ctx.nsym ctx.sym j
  have hj2 : ¬ ((sym_insert_loop ctx.sym ofs ctx.nsym).2 ≤ j ∧ j ≤ ctx.nsym) :=
    fun h => hj (hmem.2 h)
  by_cases hlt : j < insertIndex ctx ofs
  · exact sym_insert_below T ctx ofs pfx suffix j hlt
  · have hgt : ctx.nsym < j := by
      unfold insertIndex at hlt
      omega
    exact sym_insert_beyond T ctx ofs pfx suffix j hgt

/-- The calls of `sym_insert` in the loop over the globals are numbered by `nsym` from the
value on entry, there is at most one for each index, each writes no cell above its own
number, and a loop that runs to its end has raised `nsym` by the number of calls. -/
theorem collect_globals_calls_spec (T : Target) : ∀ (is : List Nat) (ctx : BuildCtx),
    (collect_globals_calls T is ctx).map InsertCall.nsym
      = List.range' ctx.nsym (collect_globals_calls T is ctx).length ∧
    (collect_globals_calls T is ctx).length ≤ is.length ∧
    (∀ ctx', collect_globals T is ctx = Except.ok ctx' →
      ctx'.nsym = ctx.nsym + (collect_globals_calls T is ctx).length) ∧
    (∀ call, call ∈ collect_globals_calls T is ctx → ∀ j, j ∈ call.writes → j ≤ call.nsym) := by
  intro is
  induction is with
  | nil =>
    intro ctx
    refine ⟨rfl, le_refl _, ?_, ?_⟩
    · intro ctx' h
      simp only [collect_globals, Except.ok.injEq] at h
      rw [← h]
      rfl
    · intro call h
      simp [collect_globals_calls] at h
  | cons i is ih =>
    intro ctx
    by_cases h0 : ctx.glob i = 0
    · have hc : collect_globals_calls T (i :: is) ctx = [] := by
        rw [collect_globals_calls]
        simp only [h0, if_true]
      rw [hc]
      refine ⟨rfl, Nat.zero_le _, ?_, ?_⟩
      · intro ctx' h
        rw [collect_globals] at h
        simp [h0] at h
      · intro call h
        simp at h
    · by_cases hz : ends_Z (T.globnames.getD i []) = true
      · have hc : collect_globals_calls T (i :: is) ctx = collect_globals_calls T is ctx := by
          rw [collect_globals_calls]
          simp only [h0, hz, if_false, Bool.not_true, Bool.false_eq_true]
        have hg : collect_globals T (i :: is) ctx = collect_globals T is ctx := by
          rw [collect_globals]
          simp only [h0, hz, if_false, Bool.not_true, Bool.false_eq_true]
        rw [hc, hg]
        obtain ⟨h1, h2, h3, h4⟩ := ih ctx
        refine ⟨h1, ?_, h3, h4⟩
        rw [List.length_cons]
        omega
      · have hz2 : ends_Z (T.globnames.getD i []) = false := by simpa using hz
        have hc : collect_globals_calls T (i :: is) ctx
            = sym_insert_call ctx (toInt32 (ctx.glob i - ctx.code)) ::
                collect_globals_calls T is
                  (sym_insert T ctx (toInt32 (ctx.glob i - ctx.code)) T.LABEL_PREFIX
                    (T.globnames.getD i [])) := by
          rw [collect_globals_calls]
          simp only [h0, hz2, if_false, Bool.not_false, if_true]
        have hg : collect_globals T (i :: is) ctx
            = collect_globals T is
                (sym_insert T ctx (toInt32 (ctx.glob i - ctx.code)) T.LABEL_PREFIX
                  (T.globnames.getD i [])) := by
          rw [collect_globals]
          simp only [h0, hz2, if_false, Bool.not_false, if_true]
        rw [hc, hg]
        obtain ⟨h1, h2, h3, h4⟩ := ih
          (sym_insert T ctx (toInt32 (ctx.glob i - ctx.code)) T.LABEL_PREFIX
            (T.globnames.getD i []))
        rw [sym_insert_nsym] at h1 h3
        refine ⟨?_, ?_, ?_, ?_⟩
        · rw [List.map_cons, h1, List.length_cons, List.range'_succ]
          rfl
        · simp only [List.length_cons]
          omega
        · intro ctx' h
          rw [h3 ctx' h, List.length_cons]
          omega
        · intro call hcall j hj
          rcases List.mem_cons.mp hcall with hh | hh
          · subst hh
            exact ((sym_insert_writes_mem _ ctx.nsym ctx.sym j).1 hj).2
          · exact h4 call hh j hj

/-- The calls of `sym_insert` in a run of `build_code` are numbered `0, 1, 2, ...` by the
value of `nsym` on entry, there are at most `nglob + 1` of them, none writes a cell above its
own number, and a run that returns `0` has made `nsym + 1` calls. -/
theorem build_code_calls_spec (T : Target) (B : Backend) (c : BuildCtx) :
    (build_code_calls T B c).map InsertCall.nsym
      = List.range (build_code_calls T B c).length ∧
    (build_code_calls T B c).length ≤ GLOB__MAX T + 1 ∧
    (∀ call, call ∈ build_code_calls T B c → ∀ j, j ∈ call.writes → j ≤ call.nsym) ∧
    (∀ ctx, build_code T B c = Except.ok (0, ctx) →
      (build_code_calls T B c).length = ctx.nsym + 1) := by
  have hnil : ∀ (l : List InsertCall), l = [] →
      l.map InsertCall.nsym = List.range l.length ∧ l.length ≤ GLOB__MAX T + 1 ∧
      (∀ call, call ∈ l → ∀ j, j ∈ call.writes → j ≤ call.nsym) := by
    intro l hl
    subst hl
    exact ⟨rfl, Nat.zero_le _, fun call h => by simp at h⟩
  by_cases hl : B.link_status ≠ 0
  · have hc : build_code_calls T B c = [] := by
      unfold build_code_calls
      rw [if_pos hl]
    obtain ⟨h1, h2, h3⟩ := hnil _ hc
    refine ⟨h1, h2, h3, ?_⟩
    intro ctx h
    rw [build_code_unfold, if_pos hl] at h
    simp only [Except.ok.injEq, Prod.mk.injEq] at h
    exact absurd h.1 hl
  cases hrel : collect_relocs T (encodeStart T B c) B.externs with
  | error e =>
    have hc : build_code_calls T B c = [] := by
      unfold build_code_calls
      rw [if_neg hl, hrel]
    obtain ⟨h1, h2, h3⟩ := hnil _ hc
    refine ⟨h1, h2, h3, ?_⟩
    intro ctx h
    rw [build_code_unfold, if_neg hl, hrel] at h
    simp at h
  | ok ctx3 =>
    by_cases he : B.encode_status ≠ 0
    · have hc : build_code_calls T B c = [] := by
        unfold build_code_calls
        rw [if_neg hl, hrel]
        simp only [he, ne_eq, not_false_eq_true, if_true]
      obtain ⟨h1, h2, h3⟩ := hnil _ hc
      refine ⟨h1, h2, h3, ?_⟩
      intro ctx h
      rw [build_code_unfold, if_neg hl, hrel] at h
      simp only [he, ne_eq, not_false_eq_true, if_true, Except.ok.injEq, Prod.mk.injEq] at h
      exact h.1.elim
    obtain ⟨m, rs, n, r, k, h3⟩ := collect_relocs_frame T _ _ _ hrel
    have hnglob : ctx3.nglob = GLOB__MAX T := by rw [h3]; rfl
    obtain ⟨f, hf⟩ := collect_pclabels_frame B (List.range ctx3.npc.toNat)
      (symbolsStart T B ctx3)
    cases hp : collect_pclabels B (List.range ctx3.npc.toNat) (symbolsStart T B ctx3) with
    | mk st ctx4 =>
      rw [hp] at hf
      simp only at hf
      have hn4 : ctx4.nsym = 0 := by rw [hf]; rfl
      have hg4 : ctx4.nglob = GLOB__MAX T := by rw [hf]; exact hnglob
      cases st with
      | some s =>
        have hc : build_code_calls T B c = [] := by
          unfold build_code_calls
          rw [if_neg hl, hrel]
          simp only [he, if_false, hp]
        obtain ⟨h1, h2, h3⟩ := hnil _ hc
        refine ⟨h1, h2, h3, ?_⟩
        intro ctx h
        rw [build_code_unfold, if_neg hl, hrel] at h
        simp only [he, if_false, hp, Except.ok.injEq, Prod.mk.injEq] at h
        have hs := collect_pclabels_status B (List.range ctx3.npc.toNat)
          (symbolsStart T B ctx3) s (by rw [hp])
        exact absurd h.1 hs
      | none =>
        obtain ⟨g1, g2, g3, g4⟩ := collect_globals_calls_spec T (List.range ctx4.nglob) ctx4
        rw [hn4, ← List.range_eq_range'] at g1
        rw [List.length_range] at g2
        cases hg : collect_globals T (List.range ctx4.nglob) ctx4 with
        | error e =>
          have hc : build_code_calls T B c
              = collect_globals_calls T (List.range ctx4.nglob) ctx4 := by
            unfold build_code_calls
            rw [if_neg hl, hrel]
            simp only [he, if_false, hp, hg]
          rw [hc]
          refine ⟨g1, by omega, g4, ?_⟩
          intro ctx h
          rw [build_code_unfold, if_neg hl, hrel] at h
          simp only [he, if_false, hp, hg] at h
          simp at h
        | ok ctx5 =>
          have hc : build_code_calls T B c
              = collect_globals_calls T (List.range ctx4.nglob) ctx4
                ++ [sym_insert_call ctx5 (toInt32 (ctx5.codesz : Int))] := by
            unfold build_code_calls
            rw [if_neg hl, hrel]
            simp only [he, if_false, hp, hg]
          have hn5 := g3 ctx5 hg
          rw [hn4, Nat.zero_add] at hn5
          rw [hc]
          refine ⟨?_, ?_, ?_, ?_⟩
          · rw [List.map_append, g1, List.length_append, List.length_singleton,
              List.range_succ]
            simp only [List.map_cons, List.map_nil, sym_insert_call, hn5]
          · rw [List.length_append, List.length_singleton]
            omega
          · intro call hcall j hj
            rcases List.mem_append.mp hcall with hh | hh
            · exact g4 call hh j hj
            · rw [List.mem_singleton] at hh
              subst hh
              exact ((sym_insert_writes_mem _ ctx5.nsym ctx5.sym j).1 hj).2
          · intro ctx h
            rw [build_code_unfold, if_neg hl, hrel] at h
            simp only [he, if_false, hp, hg, Except.ok.injEq, Prod.mk.injEq, true_and] at h
            have hcr : (closeRange T ctx5).nsym = ctx5.nsym := by
              show ctx5.nsym + 1 - 1 = ctx5.nsym
              omega
            rw [← h, List.length_append, List.length_singleton, hcr, hn5]

/-- C21: in every run of `build_code` there are at most `nglob + 1` calls of `sym_insert`,
numbered `0, 1, 2, ...` by the value of `nsym` on entry, so each is entered with
`nsym ≤ nglob`; a call writes (stores the new row in, or shifts a row into) only cells whose
index is at most that `nsym`, hence, when `npc ≥ 0`, only cells below the allocated capacity
`npc + nglob + 1`. A run that returns `0` has made `nsym + 1` calls, the last one being the
insertion of the sentinel, and a call of `sym_insert` changes no cell outside the ones
counted as written. -/
theorem build_code_sym_in_bounds (T : Target) (B : Backend) (c : BuildCtx) :
    (build_code_calls T B c).length ≤ GLOB__MAX T + 1 ∧
    (build_code_calls T B c).map InsertCall.nsym
      = List.range (build_code_calls T B c).length ∧
    (∀ call, call ∈ build_code_calls T B c →
      call.nsym ≤ GLOB__MAX T ∧
      ∀ j, j ∈ call.writes → j ≤ call.nsym ∧ (0 ≤ B.npc → (j : Int) < symCapacity T B)) ∧
    (∀ ctx, build_code T B c = Except.ok (0, ctx) →
      (build_code_calls T B c).length = ctx.nsym + 1) ∧
    (∀ (ctx : BuildCtx) (ofs : Int) (pfx suffix : List Char) (j : Nat),
      j ∉ (sym_insert_call ctx ofs).writes →
      (sym_insert T ctx ofs pfx suffix).sym j = ctx.sym j) := by
  obtain ⟨h1, h2, h3, h4⟩ := build_code_calls_spec T B c
  refine ⟨h2, h1, ?_, h4, fun ctx ofs pfx suffix j hj =>
    sym_insert_writes_frame T ctx ofs pfx suffix j hj⟩
  intro call hcall
  have hmem : call.nsym ∈ (build_code_calls T B c).map InsertCall.nsym :=
    List.mem_map_of_mem _ hcall
  rw [h1, List.mem_range] at hmem
  refine ⟨by omega, ?_⟩
  intro j hj
  have hle := h3 call hcall j hj
  refine ⟨hle, ?_⟩
  intro hnpc
  unfold symCapacity
  omega

/-- Witness for C21: with the two globals in the opposite order the second call shifts the
first row, and every cell written lies below the capacity `3 + 2 + 1`. -/
theorem build_code_sym_in_bounds_witness :
    build_code_calls sampleTarget swappedBackend sampleCtx
      = [⟨0, [0]⟩, ⟨1, [1, 0]⟩, ⟨2, [2]⟩] ∧
    symCapacity sampleTarget swappedBackend = 6 ∧
    (0 : Int) ≤ swappedBackend.npc ∧
    ((1 : Nat) : Int) < symCapacity sampleTarget swappedBackend ∧
    ((2 : Nat) : Int) < symCapacity sampleTarget swappedBackend :=
  ⟨by decide, by decide, by decide,
    (((build_code_sym_in_bounds sampleTarget swappedBackend sampleCtx).2.2.1 ⟨1, [1, 0]⟩
      (by decide)).2 1 (by decide)).2 (by decide),
    (((build_code_sym_in_bounds sampleTarget swappedBackend sampleCtx).2.2.1 ⟨2, [2]⟩
      (by decide)).2 2 (by decide)).2 (by decide)⟩

/-! ## Results on the options of `parseargs` -/

theorem getLast?_cons_getD {α : Type} (a : α) (l : List α) :
    (a :: l).getLast? = some (l.getLast?.getD a) := by
  cases l with
  | nil => rfl
  | cons b l => rw [List.getLast?_cons_cons]; cases h : (b :: l).getLast? with
    | none => simp at h
    | some x => rfl

/-- At the end of the options the loop of `parseargs` goes to the label `ok`. -/
theorem parseargs_loop_stop (F : Frontend) (tail : List (List Char)) (mode : Option Nat)
    (out : List Char) (h : endsOptions tail = true) :
    parseargs_loop F tail mode out = parseargs_ok F mode out (remaining tail) := by
  match tail with
  | [] => rfl
  | [] :: rest => rfl
  | (a0 :: a1) :: rest =>
    simp only [endsOptions, List.head?_cons, ne_eq, Option.some.injEq, decide_eq_true_eq] at h
    by_cases h0 : a0 = '-'
    · subst h0
      rcases h with h | h | h
      · exact absurd rfl h
      · have h1 : a1 = [] := by
          have := congrArg List.tail h
          simpa using this
        subst h1
        rfl
      · have h1 : a1 = ['-'] := by
          have := congrArg List.tail h
          simpa using this
        subst h1
        rfl
    · have hne : (a0 :: a1) ≠ "--".toList := by
        show (a0 :: a1) ≠ ['-', '-']
        intro he
        injection he with he1 _
        exact h0 he1
      rw [parseargs_loop.eq_def, remaining, if_neg hne]
      simp only [ne_eq, h0, not_false_eq_true, if_true]

theorem parseargs_loop_m (F : Frontend) (v : List Char) (rest : List (List Char))
    (mode : Option Nat) (out : List Char) :
    parseargs_loop F ("-m".toList :: v :: rest) mode out =
      match parsemode F v with
      | Except.error e => Except.error e
      | Except.ok m => parseargs_loop F rest (some m) out := rfl

theorem parseargs_loop_o (F : Frontend) (v : List Char) (rest : List (List Char))
    (mode : Option Nat) (out : List Char) :
    parseargs_loop F ("-o".toList :: v :: rest) mode out = parseargs_loop F rest mode v := rfl

theorem optionWords_cons_m (v : List Char) (opts : List CmdOption) (tail : List (List Char)) :
    optionWords (CmdOption.m v :: opts) ++ tail
      = "-m".toList :: v :: (optionWords opts ++ tail) := rfl

theorem optionWords_cons_o (v : List Char) (opts : List CmdOption) (tail : List (List Char)) :
    optionWords (CmdOption.o v :: opts) ++ tail
      = "-o".toList :: v :: (optionWords opts ++ tail) := rfl

/-- The loop of `parseargs` over a sequence of options whose modes are all recognised: it
continues behind them with the mode of the last `-m` and the value of the last `-o`. -/
theorem parseargs_loop_options (F : Frontend) : ∀ (opts : List CmdOption)
    (tail : List (List Char)) (mode : Option Nat) (out : List Char),
    (∀ v, v ∈ modeValues opts → ∃ i, parsemode F v = Except.ok i) →
    parseargs_loop F (optionWords opts ++ tail) mode out
      = parseargs_loop F tail
          (match (modeValues opts).getLast? with
            | none => mode
            | some v => (parsemode F v).toOption)
          (((outValues opts).getLast?).getD out) := by
  intro opts
  induction opts with
  | nil => intro tail mode out _; rfl
  | cons o opts ih =>
    intro tail mode out hrec
    cases o with
    | m v =>
      obtain ⟨i, hi⟩ := hrec v (by simp [modeValues])
      rw [optionWords_cons_m, parseargs_loop_m, hi]
      simp only
      rw [ih tail (some i) out (fun w hw => hrec w (by simp [modeValues, hw]))]
      have hl : (modeValues (CmdOption.m v :: opts)).getLast?
          = some ((modeValues opts).getLast?.getD v) := getLast?_cons_getD v _
      have ho : outValues (CmdOption.m v :: opts) = outValues opts := rfl
      rw [hl, ho]
      cases hlast : (modeValues opts).getLast? with
      | none => simp [hi, Except.toOption]
      | some w => simp
    | o v =>
      rw [optionWords_cons_o, parseargs_loop_o]
      rw [ih tail mode v (fun w hw => hrec w (by simpa [modeValues] using hw))]
      have hl : (outValues (CmdOption.o v :: opts)).getLast?
          = some ((outValues opts).getLast?.getD v) := getLast?_cons_getD v _
      have hm : modeValues (CmdOption.o v :: opts) = modeValues opts := rfl
      rw [hl, hm]
      rfl

/-- When the loop of `parseargs` fails on the arguments behind a sequence of options, whatever
the mode and the output name are, it fails on the whole. -/
theorem parseargs_loop_options_error (F : Frontend) (tail : List (List Char))
    (h : ∀ mode out, parseargs_loop F tail mode out = Except.error (usage F)) :
    ∀ (opts : List CmdOption) (mode : Option Nat) (out : List Char),
    parseargs_loop F (optionWords opts ++ tail) mode out = Except.error (usage F) := by
  intro opts
  induction opts with
  | nil => intro mode out; exact h mode out
  | cons o opts ih =>
    intro mode out
    cases o with
    | m v =>
      rw [optionWords_cons_m, parseargs_loop_m]
      cases hp : parsemode F v with
      | error e => rw [parsemode_error F v e hp]
      | ok i => exact ih _ _
    | o v =>
      rw [optionWords_cons_o, parseargs_loop_o]
      exact ih _ _

/-- A normal return of the loop of `parseargs` splits the arguments into a sequence of options
with recognised modes and the arguments at which the options end. -/
theorem parseargs_loop_shape (F : Frontend) : ∀ (n : Nat) (args : List (List Char))
    (mode : Option Nat) (out : List Char) (pa : ParsedArgs), args.length ≤ n →
    parseargs_loop F args mode out = Except.ok pa →
    ∃ opts tail, args = optionWords opts ++ tail ∧ endsOptions tail = true ∧
      ∀ v, v ∈ modeValues opts → ∃ i, parsemode F v = Except.ok i := by
  intro n
  induction n with
  | zero =>
    intro args mode out pa hlen _
    have : args = [] := List.length_eq_zero.mp (by omega)
    subst this
    exact ⟨[], [], rfl, rfl, fun v hv => by simp [modeValues] at hv⟩
  | succ n ih =>
    intro args mode out pa hlen h
    have hstop : ∀ tail : List (List Char), endsOptions tail = true →
        ∃ opts tail', tail = optionWords opts ++ tail' ∧ endsOptions tail' = true ∧
          ∀ v, v ∈ modeValues opts → ∃ i, parsemode F v = Except.ok i :=
      fun tail ht => ⟨[], tail, rfl, ht, fun v hv => by simp [modeValues] at hv⟩
    match args with
    | [] => exact hstop _ rfl
    | [] :: rest => exact hstop _ rfl
    | (a0 :: a1) :: rest =>
      rw [parseargs_loop.eq_def] at h
      simp only at h
      split at h
      · rename_i h0
        exact hstop _ (by simp [endsOptions, h0])
      · rename_i h0
        have h0 : a0 = '-' := by simpa using h0
        subst h0
        split at h
        · exact hstop _ (by simp [endsOptions])
        · split at h
          · simp at h
          · rename_i a2 ha2
            have ha2 : a2 = [] := by simpa using ha2
            subst ha2
            exact hstop _ (by simp [endsOptions])
        · split at h
          · simp at h
          · rename_i a2 v rest' ha2
            have ha2 : a2 = [] := by simpa using ha2
            subst ha2
            split at h
            · simp at h
            · rename_i i hi
              obtain ⟨opts, tail, hargs, hends, hrec⟩ := ih rest' (some i) out pa
                (by simp only [List.length_cons] at hlen; omega) h
              refine ⟨CmdOption.m v :: opts, tail, ?_, hends, ?_⟩
              · rw [optionWords_cons_m, ← hargs]
                rfl
              · intro w hw
                simp only [modeValues, List.mem_cons] at hw
                rcases hw with hw | hw
                · subst hw
                  exact ⟨i, hi⟩
                · exact hrec w hw
        · split at h
          · simp at h
          · rename_i a2 v rest' ha2
            have ha2 : a2 = [] := by simpa using ha2
            subst ha2
            obtain ⟨opts, tail, hargs, hends, hrec⟩ := ih rest' mode v pa
              (by simp only [List.length_cons] at hlen; omega) h
            refine ⟨CmdOption.o v :: opts, tail, ?_, hends, ?_⟩
            · rw [optionWords_cons_o, ← hargs]
              rfl
            · intro w hw
              exact hrec w (by simpa [modeValues] using hw)
        · simp at h

/-- The flags the loop of `parseargs` rejects at once: a flag other than `--`, `-m` and `-o`,
and a flag with text attached. -/
theorem parseargs_loop_flag_error (F : Frontend) (c : Char) (text : List Char)
    (rest : List (List Char)) (mode : Option Nat) (out : List Char)
    (h : (c ≠ '-' ∧ c ≠ 'm' ∧ c ≠ 'o') ∨ text ≠ []) :
    parseargs_loop F (('-' :: c :: text) :: rest) mode out = Except.error (usage F) := by
  rw [parseargs_loop.eq_def]
  simp only [ne_eq, not_true_eq_false, if_false]
  split
  · rename_i heq
    simp at heq
  · rename_i a2 heq
    simp only [List.cons.injEq] at heq
    obtain ⟨hc, ht⟩ := heq
    rcases h with h | h
    · exact absurd hc h.1
    · rw [if_pos (by rw [← ht]; exact h)]
  · rename_i a2 v rest' heq
    simp only [List.cons.injEq] at heq
    obtain ⟨hc, ht⟩ := heq
    rcases h with h | h
    · exact absurd hc h.2.1
    · rw [if_pos (by rw [← ht]; exact h)]
  · rename_i a2 v rest' heq
    simp only [List.cons.injEq] at heq
    obtain ⟨hc, ht⟩ := heq
    rcases h with h | h
    · exact absurd hc h.2.2
    · rw [if_pos (by rw [← ht]; exact h)]
  · rfl

/-- The flags `-m` and `-o` as the last argument, without a value. -/
theorem parseargs_loop_missing_value (F : Frontend) (c : Char) (mode : Option Nat)
    (out : List Char) (h : c = 'm' ∨ c = 'o') :
    parseargs_loop F [['-', c]] mode out = Except.error (usage F) := by
  rcases h with h | h <;> subst h <;> rfl

/-- The flag `-m` with a value that is not a mode name. -/
theorem parseargs_loop_unknown_mode (F : Frontend) (v : List Char) (rest : List (List Char))
    (mode : Option Nat) (out : List Char) (h : ∀ i, parsemode F v ≠ Except.ok i) :
    parseargs_loop F ("-m".toList :: v :: rest) mode out = Except.error (usage F) := by
  rw [parseargs_loop_m]
  cases hp : parsemode F v with
  | error e => rw [parsemode_error F v e hp]
  | ok i => exact absurd hp (h i)

/-- C24: for every argument vector, `parseargs` returns normally only if the arguments are a
sequence of `-m <mode>` and `-o <file>` options, every mode recognised and at least one `-m`
among them, followed by the end of the arguments, a non-option argument, `-` or `--`; the
resulting mode is that of the last `-m`, `outname` is the value of the last `-o`, or `-` when
there is none, and the remaining arguments start behind the options (behind `--`). Such
arguments do make `parseargs` return. Every other case ends in `usage`, with exit status `1`:
no `-m` before the options end, a flag other than `-m`, `-o` and `--`, a flag with text
attached, `-m` or `-o` as the last argument, and a mode that is not recognised. -/
theorem parseargs_spec (F : Frontend) :
    (∀ (args : List (List Char)) (pa : ParsedArgs), parseargs F args = Except.ok pa →
      ∃ opts tail, args = optionWords opts ++ tail ∧ endsOptions tail = true ∧
        (∀ v, v ∈ modeValues opts → ∃ i, parsemode F v = Except.ok i) ∧
        (∃ v, (modeValues opts).getLast? = some v ∧ parsemode F v = Except.ok pa.mode) ∧
        pa.outname = ((outValues opts).getLast?).getD "-".toList ∧
        pa.args = remaining tail) ∧
    (∀ (opts : List CmdOption) (tail : List (List Char)) (v : List Char) (i : Nat),
      endsOptions tail = true →
      (∀ w, w ∈ modeValues opts → ∃ k, parsemode F w = Except.ok k) →
      (modeValues opts).getLast? = some v → parsemode F v = Except.ok i →
      parseargs F (optionWords opts ++ tail)
        = Except.ok ⟨i, ((outValues opts).getLast?).getD "-".toList, remaining tail⟩) ∧
    (∀ (args : List (List Char)) (e : Exit), parseargs F args = Except.error e →
      e = usage F ∧ e.status = 1) ∧
    (∀ (opts : List CmdOption) (tail : List (List Char)),
      endsOptions tail = true → modeValues opts = [] →
      parseargs F (optionWords opts ++ tail) = Except.error (usage F)) ∧
    (∀ (opts : List CmdOption) (c : Char) (text : List Char) (rest : List (List Char)),
      c ≠ '-' → c ≠ 'm' → c ≠ 'o' →
      parseargs F (optionWords opts ++ ('-' :: c :: text) :: rest) = Except.error (usage F)) ∧
    (∀ (opts : List CmdOption) (c : Char) (text : List Char) (rest : List (List Char)),
      text ≠ [] →
      parseargs F (optionWords opts ++ ('-' :: c :: text) :: rest) = Except.error (usage F)) ∧
    (∀ (opts : List CmdOption) (c : Char), c = 'm' ∨ c = 'o' →
      parseargs F (optionWords opts ++ [['-', c]]) = Except.error (usage F)) ∧
    (∀ (opts : List CmdOption) (v : List Char) (rest : List (List Char)),
      (∀ i, parsemode F v ≠ Except.ok i) →
      parseargs F (optionWords opts ++ "-m".toList :: v :: rest) = Except.error (usage F)) := by
  have hrun : ∀ (opts : List CmdOption) (tail : List (List Char)),
      endsOptions tail = true →
      (∀ w, w ∈ modeValues opts → ∃ k, parsemode F w = Except.ok k) →
      parseargs F (optionWords opts ++ tail)
        = parseargs_ok F
            (match (modeValues opts).getLast? with
              | none => none
              | some v => (parsemode F v).toOption)
            (((outValues opts).getLast?).getD "-".toList) (remaining tail) := by
    intro opts tail hends hrec
    unfold parseargs
    rw [parseargs_loop_options F opts tail none _ hrec, parseargs_loop_stop F tail _ _ hends]
  refine ⟨?_, ?_, ?_, ?_, ?_, ?_, ?_, ?_⟩
  · intro args pa h
    obtain ⟨opts, tail, hargs, hends, hrec⟩ :=
      parseargs_loop_shape F args.length args none "-".toList pa (le_refl _) h
    refine ⟨opts, tail, hargs, hends, hrec, ?_⟩
    rw [hargs, hrun opts tail hends hrec] at h
    cases hlast : (modeValues opts).getLast? with
    | none =>
      rw [hlast] at h
      simp [parseargs_ok] at h
    | some v =>
      rw [hlast] at h
      obtain ⟨i, hi⟩ := hrec v (List.mem_of_getLast?_eq_some hlast)
      simp only [hi, Except.toOption, parseargs_ok, Except.ok.injEq] at h
      subst h
      exact ⟨⟨v, rfl, hi⟩, rfl, rfl⟩
  · intro opts tail v i hends hrec hlast hi
    rw [hrun opts tail hends hrec, hlast]
    simp only [hi, Except.toOption, parseargs_ok]
  · intro args e h
    have he : e = usage F := parseargs_loop_error F args.length args none _ e (le_refl _) h
    subst he
    exact ⟨rfl, rfl⟩
  · intro opts tail hends hnone
    rw [hrun opts tail hends (by rw [hnone]; intro w hw; simp at hw), hnone]
    rfl
  · intro opts c text rest h1 h2 h3
    exact parseargs_loop_options_error F _
      (fun mode out => parseargs_loop_flag_error F c text rest mode out (Or.inl ⟨h1, h2, h3⟩))
      opts none _
  · intro opts c text rest ht
    exact parseargs_loop_options_error F _
      (fun mode out => parseargs_loop_flag_error F c text rest mode out (Or.inr ht))
      opts none _
  · intro opts c hc
    exact parseargs_loop_options_error F _
      (fun mode out => parseargs_loop_missing_value F c mode out hc) opts none _
  · intro opts v rest hv
    exact parseargs_loop_options_error F _
      (fun mode out => parseargs_loop_unknown_mode F v rest mode out hv) opts none _

/-- Witness for C24: of two `-m` and two `-o` options the last ones count, and the `-o` behind
the first input file is not an option; the flag `-x` ends in `usage`. -/
theorem parseargs_spec_witness :
    longArgs
      = optionWords [CmdOption.m "bcdef".toList, CmdOption.o "a.h".toList,
          CmdOption.m "raw".toList, CmdOption.o "b.bin".toList]
        ++ ["in.dasc".toList, "-o".toList, "c".toList] ∧
    parsemode sampleFrontend "raw".toList = Except.ok 4 ∧
    parseargs sampleFrontend longArgs
      = Except.ok ⟨4, "b.bin".toList, ["in.dasc".toList, "-o".toList, "c".toList]⟩ ∧
    parseargs sampleFrontend ["-x".toList] = Except.error (usage sampleFrontend) ∧
    (usage sampleFrontend).status = 1 :=
  ⟨rfl, rfl,
    (parseargs_spec sampleFrontend).2.1
      [CmdOption.m "bcdef".toList, CmdOption.o "a.h".toList, CmdOption.m "raw".toList,
        CmdOption.o "b.bin".toList]
      ["in.dasc".toList, "-o".toList, "c".toList] "raw".toList 4 rfl
      (by
        intro w hw
        simp only [modeValues, List.mem_cons, List.mem_singleton, List.not_mem_nil,
          or_false] at hw
        rcases hw with rfl | rfl
        · exact ⟨5, rfl⟩
        · exact ⟨4, rfl⟩)
      rfl rfl,
    rfl,
    ((parseargs_spec sampleFrontend).2.2.1 ["-x".toList] (usage sampleFrontend) rfl).2⟩

end BuildVM
